import Mathlib

/-!
Verification of the retrieval and ranking subsystem of the `holo`
conversational-agent backend.

Strings from the TypeScript source are modelled as `List Char` (`Str`).
JavaScript numbers are modelled as exact rationals (`ℚ`) where the code only
adds, multiplies, divides and compares, and as reals (`ℝ`) where `Math.sqrt`
appears (cosine similarity).  Character-class helpers cover the ASCII range
plus the Latin letters named by the source's own regular expressions
(`áéíóúüñ` and their upper-case forms); no input in this development uses any
other character.
-/

/-! ## Shared string helpers -/

abbrev Str := List Char

/-- Whitespace as used by JavaScript `trim`, `\s` and `split(/\s+/)`:
space, tab, newline, vertical tab, form feed, carriage return. -/
def isWsChar (c : Char) : Bool :=
  c = ' ' ∨ c = '\t' ∨ c = '\n' ∨ c = Char.ofNat 11 ∨ c = Char.ofNat 12 ∨ c = '\r'

/-- JavaScript `String.prototype.trim`: drop whitespace from both ends. -/
def jsTrim (s : Str) : Str :=
  ((s.dropWhile isWsChar).reverse.dropWhile isWsChar).reverse

/-- JavaScript `toLowerCase` on the character range used by the source:
ASCII `A`-`Z` plus the accented Latin capitals of Spanish. -/
def lowerChar (c : Char) : Char :=
  if 'A' ≤ c ∧ c ≤ 'Z' then Char.ofNat (c.toNat + 32)
  else if c = 'Á' then 'á'
  else if c = 'É' then 'é'
  else if c = 'Í' then 'í'
  else if c = 'Ó' then 'ó'
  else if c = 'Ú' then 'ú'
  else if c = 'Ü' then 'ü'
  else if c = 'Ñ' then 'ñ'
  else c

/-- JavaScript `toUpperCase` on the same character range. -/
def upperChar (c : Char) : Char :=
  if 'a' ≤ c ∧ c ≤ 'z' then Char.ofNat (c.toNat - 32)
  else if c = 'á' then 'Á'
  else if c = 'é' then 'É'
  else if c = 'í' then 'Í'
  else if c = 'ó' then 'Ó'
  else if c = 'ú' then 'Ú'
  else if c = 'ü' then 'Ü'
  else if c = 'ñ' then 'Ñ'
  else c

/-- `normalize('NFD').replace(/[̀-ͯ]/g, '').toLowerCase()` on the
character range used by the source: strips the accent and lower-cases.
Note `ñ`/`Ñ` decompose to `n` + combining tilde, so they map to `n`. -/
def deaccentLowerChar (c : Char) : Char :=
  if c = 'á' ∨ c = 'Á' then 'a'
  else if c = 'é' ∨ c = 'É' then 'e'
  else if c = 'í' ∨ c = 'Í' then 'i'
  else if c = 'ó' ∨ c = 'Ó' then 'o'
  else if c = 'ú' ∨ c = 'Ú' ∨ c = 'ü' ∨ c = 'Ü' then 'u'
  else if c = 'ñ' ∨ c = 'Ñ' then 'n'
  else lowerChar c

/-- Split on runs of whitespace, returning the non-empty tokens.  This is
JavaScript `split(/\s+/)` composed with the removal of empty strings (every
caller in the source immediately filters tokens by a length bound > 0,
which discards the empty leading token `split` can produce). -/
def splitWsTokens : Str → List Str
  | [] => []
  | c :: rest =>
    if isWsChar c then splitWsTokens rest
    else
      match splitWsTokens rest with
      | [] => [[c]]
      | t :: ts =>
        match rest with
        | [] => [[c]]
        | d :: _ => if isWsChar d then [c] :: t :: ts else (c :: t) :: ts

/-- `needle` occurs as a contiguous substring of `hay`
(JavaScript `String.prototype.includes`). -/
def isSubstr (needle hay : Str) : Bool :=
  match hay with
  | [] => needle.isEmpty
  | _ :: rest => needle.isPrefixOf hay || isSubstr needle rest

/-- Decimal rendering of a natural number, as JavaScript template literals
render list lengths. -/
def natStr (n : ℕ) : Str := (Nat.repr n).toList

/-! Sanity checks for the helpers. -/

example : jsTrim "  hola \n".toList = "hola".toList := by decide
example : splitWsTokens "  el gato ".toList = ["el".toList, "gato".toList] := by decide
example : isSubstr "gat".toList "el gato".toList = true := by decide
example : isSubstr "perro".toList "el gato".toList = false := by decide
example : natStr 16 = ['1', '6'] := by decide

/-! ## KnowledgeService (`knowledge.service.ts`): document knowledge engine -/

/-- A chunk produced by `KnowledgeService.chunkText`. -/
structure KnowledgeChunk where
  content : Str
  index : ℕ
deriving DecidableEq

/-- Splitting on `/\n\n+/`: a run of two or more newlines separates
paragraphs (the regex `+` consumes the whole run).  `acc` is the current
paragraph reversed; `nl` counts newlines seen but not yet committed. -/
def splitParasGo : Str → Str → ℕ → List Str
  | [], acc, nl =>
    if nl ≥ 2 then [acc.reverse, []]
    else [(List.replicate nl '\n' ++ acc).reverse]
  | c :: rest, acc, nl =>
    if c = '\n' then splitParasGo rest acc (nl + 1)
    else if nl ≥ 2 then acc.reverse :: splitParasGo rest [c] 0
    else splitParasGo rest (c :: (List.replicate nl '\n' ++ acc)) 0

/-- JavaScript `text.split(/\n\n+/)`. -/
def splitParas (text : Str) : List Str := splitParasGo text [] 0

example : splitParas "a\n\n\nb\nc".toList = ["a".toList, "b\nc".toList] := by decide
example : splitParas "a\n\n".toList = ["a".toList, []] := by decide

/-- JavaScript `buffer.slice(-n)`: the last `n` characters. -/
def lastN (n : ℕ) (l : Str) : Str := l.drop (l.length - n)

/-- The paragraph-packing loop of `KnowledgeService.chunkText`: greedily pack
paragraphs into a 500-character budget; on overflow push the trimmed buffer
and carry a 50-character overlap into the next buffer. -/
def chunkLoop : List Str → Str → ℕ → List KnowledgeChunk
  | [], buffer, index =>
    if jsTrim buffer ≠ [] then [⟨jsTrim buffer, index⟩] else []
  | para :: rest, buffer, index =>
    if buffer.length + para.length > 500 ∧ buffer.length > 0 then
      ⟨jsTrim buffer, index⟩ ::
        chunkLoop rest (lastN 50 buffer ++ '\n' :: '\n' :: para) (index + 1)
    else
      chunkLoop rest (if buffer.isEmpty then para else buffer ++ '\n' :: '\n' :: para) index

/-- `KnowledgeService.chunkText`. -/
def chunkText (text : Str) : List KnowledgeChunk :=
  if jsTrim text = [] then [] else chunkLoop (splitParas text) [] 0

example : (chunkText "hola\n\nmundo".toList).map KnowledgeChunk.content
    = ["hola\n\nmundo".toList] := by decide

/-- `KnowledgeService.tokenize`: lowercase, replace every character outside
`[\wáéíóúüñ\s]` by a space, split on whitespace, keep tokens of length > 2. -/
def tokenize (text : Str) : List Str :=
  let lowered := text.map lowerChar
  let cleaned := lowered.map (fun c =>
    if ('a' ≤ c ∧ c ≤ 'z') ∨ ('A' ≤ c ∧ c ≤ 'Z') ∨ ('0' ≤ c ∧ c ≤ '9') ∨ c = '_'
        ∨ c = 'á' ∨ c = 'é' ∨ c = 'í' ∨ c = 'ó' ∨ c = 'ú' ∨ c = 'ü' ∨ c = 'ñ'
        ∨ isWsChar c
      then c else ' ')
  (splitWsTokens cleaned).filter (fun w => w.length > 2)

example : tokenize "¡Tengo un GATO!".toList = ["tengo".toList, "gato".toList] := by decide

/-- Pair contribution of the lexical scorer: 2 for an exact token match, 1
for a substring match in either direction. -/
def pairPoints (qt ct : Str) : ℕ :=
  if ct = qt then 2
  else if isSubstr qt ct ∨ isSubstr ct qt then 1
  else 0

/-- The nested scoring loop of `KnowledgeService.retrieveContext`, as the
source writes it: a running accumulator over query tokens and chunk tokens. -/
def lexScoreRaw (queryTokens chunkTokens : List Str) : ℕ :=
  queryTokens.foldl
    (fun acc qt => chunkTokens.foldl (fun a ct => a + pairPoints qt ct) acc) 0

/-- The same score written as a sum over all token pairs (the spec's
formulation of the Lexical Scorer). -/
def lexScoreSum (queryTokens chunkTokens : List Str) : ℕ :=
  (queryTokens.map (fun qt => (chunkTokens.map (fun ct => pairPoints qt ct)).sum)).sum

/-- A chunk together with its normalized lexical score. -/
structure ScoredChunk where
  content : Str
  score : ℚ
deriving DecidableEq

/-- Descending-by-score comparison used to model the stable JavaScript
`sort((a, b) => b.score - a.score)`; `List.insertionSort` is stable and
sorts into this order. -/
def scoreGE (x y : ScoredChunk) : Prop := y.score ≤ x.score

instance : DecidableRel scoreGE := fun x y => inferInstanceAs (Decidable (y.score ≤ x.score))

instance : IsTotal ScoredChunk scoreGE := ⟨fun x y => le_total y.score x.score⟩

instance : IsTrans ScoredChunk scoreGE := ⟨fun _ _ _ h h' => le_trans h' h⟩

/-- The normalized score of `KnowledgeService.retrieveContext`:
`score / queryTokens.length` as an exact rational.  Written with `mkRat`
(the kernel-computable exact division of integers); the lemma
`chunkScore_eq_div` below proves it equals the literal quotient. -/
def chunkScore (queryTokens : List Str) (chunkTokens : List Str) : ℚ :=
  mkRat (lexScoreRaw queryTokens chunkTokens) queryTokens.length

/-- `KnowledgeService.retrieveContext`: tokenize the query, score every chunk,
sort descending, take the top 4, keep normalized score ≥ 1, join the
survivors with a blank line. -/
def retrieveContext (chunks : List KnowledgeChunk) (query : Str) : Option Str :=
  if chunks.isEmpty then none
  else
    let queryTokens := tokenize query
    if queryTokens.isEmpty then none
    else
      let scored := chunks.map (fun ch =>
        ScoredChunk.mk ch.content (chunkScore queryTokens (tokenize ch.content)))
      let sorted := List.insertionSort scoreGE scored
      let relevant := (sorted.take 4).filter (fun r => 1 ≤ r.score)
      if relevant.isEmpty then none
      else some (List.intercalate ['\n', '\n'] (relevant.map ScoredChunk.content))

example :
    retrieveContext (chunkText "el gato come pescado".toList) "tengo un gato".toList
      = some "el gato come pescado".toList := by decide

example :
    retrieveContext (chunkText "el perro ladra".toList) "tengo un gato".toList
      = none := by decide

/-! ## Cosine similarity primitive (`rag.service.ts` / `memory-rag.service.ts`)

Embedding vectors are exact rationals; `Math.sqrt` forces the result into `ℝ`.
The single accumulation loop of the source runs over `i < a.length` computing
`dot`, `normA` and `normB`; it is modelled by `dotQ`/`normSqQ` (on the branch
where it is used the two lengths are equal, so `zipWith` and `map` agree with
the index loop). -/

def dotQ (a b : List ℚ) : ℚ := (List.zipWith (· * ·) a b).sum

def normSqQ (a : List ℚ) : ℚ := (a.map (fun x => x * x)).sum

/-- `RagService.cosineSimilarity`: 0 when lengths differ or the denominator
`sqrt(normA) * sqrt(normB)` is zero, else `dot / denominator`. -/
noncomputable def cosineSimilarity (a b : List ℚ) : ℝ :=
  if a.length ≠ b.length then 0
  else
    let den := Real.sqrt ((normSqQ a : ℝ)) * Real.sqrt ((normSqQ b : ℝ))
    if den = 0 then 0 else (dotQ a b : ℝ) / den

/-- `MemoryRagService.cosineSimilarity`: identical except for an extra
early-out when `a` is empty. -/
noncomputable def memCosineSimilarity (a b : List ℚ) : ℝ :=
  if a.length ≠ b.length ∨ a.length = 0 then 0
  else
    let den := Real.sqrt ((normSqQ a : ℝ)) * Real.sqrt ((normSqQ b : ℝ))
    if den = 0 then 0 else (dotQ a b : ℝ) / den

/-! ## MemoryRagService (`memory-rag.service.ts`): episodic memory engine -/

/-- A stored episodic memory.  JavaScript `Date.now()` timestamps are integer
milliseconds, modelled as `ℤ`. -/
structure MemoryEntry where
  id : Str
  summary : Str
  embedding : List ℚ
  timestamp : ℤ
  retrievalCount : ℕ
deriving DecidableEq

/-- The id string `mem_` + `Date.now()`. -/
def memId (now : ℤ) : Str := "mem_".toList ++ (toString now).toList

/-- A fresh entry as built by `MemoryRagService.addEntry`. -/
def mkNewEntry (summary : Str) (embedding : List ℚ) (now : ℤ) : MemoryEntry :=
  ⟨memId now, summary, embedding, now, 0⟩

/-- The eviction score `retrievalCount * 1000 + timestamp / 1e10`, written as
one exact integer quotient (`mkRat`) so that it is kernel-computable; the
lemma `evictScore_eq` below proves it equals the source's formula. -/
def evictScore (e : MemoryEntry) : ℚ :=
  mkRat (e.retrievalCount * 10000000000000 + e.timestamp) 10000000000

theorem evictScore_eq (e : MemoryEntry) :
    evictScore e
      = (e.retrievalCount : ℚ) * 1000 + (e.timestamp : ℚ) / 10000000000 := by
  unfold evictScore
  rw [Rat.mkRat_eq_div]
  push_cast
  ring

/-- The scan of `MemoryRagService.evictLeastUseful`: `i` is the index of the
next element, `wi`/`ws` the best index and score so far.  The source starts
with `worstScore = Infinity`, so the first element always replaces the
initial state; `evictLeastUseful` below therefore seeds the scan with the
head's score. -/
def worstIdxGo : List MemoryEntry → ℕ → ℕ → ℚ → ℕ
  | [], _, wi, _ => wi
  | e :: rest, i, wi, ws =>
    if evictScore e < ws then worstIdxGo rest (i + 1) i (evictScore e)
    else worstIdxGo rest (i + 1) wi ws

/-- `MemoryRagService.evictLeastUseful`: remove the entry with the smallest
eviction score (ties keep the earliest index, as the scan only updates on a
strict decrease). -/
def evictLeastUseful (l : List MemoryEntry) : List MemoryEntry :=
  match l with
  | [] => []
  | e :: rest => (e :: rest).eraseIdx (worstIdxGo rest 1 0 (evictScore e))

/-- The scan result is a valid index of `wi`'s list when seeded in bounds. -/
theorem worstIdxGo_lt (rest : List MemoryEntry) :
    ∀ i wi ws, wi < i → worstIdxGo rest i wi ws < i + rest.length := by
  induction rest with
  | nil => intro i wi ws h; simpa [worstIdxGo] using Nat.lt_of_lt_of_le h (Nat.le_add_right i 0)
  | cons e rest ih =>
    intro i wi ws h
    simp only [worstIdxGo]
    by_cases hc : evictScore e < ws
    · rw [if_pos hc]
      have := ih (i + 1) i (evictScore e) (Nat.lt_succ_self i)
      simpa [Nat.add_assoc, Nat.add_comm, Nat.add_left_comm] using this
    · rw [if_neg hc]
      have := ih (i + 1) wi ws (Nat.lt_succ_of_lt h)
      simpa [Nat.add_assoc, Nat.add_comm, Nat.add_left_comm] using this

theorem length_evictLeastUseful (l : List MemoryEntry) (h : l ≠ []) :
    (evictLeastUseful l).length = l.length - 1 := by
  match l with
  | [] => exact absurd rfl h
  | e :: rest =>
    have hlt : worstIdxGo rest 1 0 (evictScore e) < rest.length + 1 := by
      simpa [Nat.add_comm] using
        worstIdxGo_lt rest 1 0 (evictScore e) (Nat.zero_lt_one)
    simp [evictLeastUseful, List.length_eraseIdx, hlt]

/-- The `while (entries.length > MAX_MEMORIES) evictLeastUseful()` loop. -/
def enforceCap (l : List MemoryEntry) : List MemoryEntry :=
  if h : l.length > 200 then enforceCap (evictLeastUseful l) else l
termination_by l.length
decreasing_by
  have hne : l ≠ [] := by
    intro hnil
    rw [hnil] at h
    simp at h
  rw [length_evictLeastUseful l hne]
  omega

/-- `MemoryRagService.addEntry`: append a fresh entry, then enforce the
200-entry cap. -/
def addEntry (entries : List MemoryEntry) (summary : Str) (embedding : List ℚ)
    (now : ℤ) : List MemoryEntry :=
  enforceCap (entries ++ [mkNewEntry summary embedding now])

theorem enforceCap_of_le (l : List MemoryEntry) (h : l.length ≤ 200) :
    enforceCap l = l := by
  rw [enforceCap]
  simp [Nat.not_lt_of_le h]

/-- The scan either keeps the seed (and the seed score bounds every scanned
element) or lands on the first strict minimum of the scanned suffix. -/
theorem worstIdxGo_min (rest : List MemoryEntry) :
    ∀ i wi ws,
      (worstIdxGo rest i wi ws = wi ∧ ∀ e ∈ rest, ws ≤ evictScore e) ∨
      (∃ j, ∃ hj : j < rest.length,
        worstIdxGo rest i wi ws = i + j ∧
        evictScore (rest.get ⟨j, hj⟩) < ws ∧
        ∀ e ∈ rest, evictScore (rest.get ⟨j, hj⟩) ≤ evictScore e) := by
  induction rest with
  | nil =>
    intro i wi ws
    left
    simp [worstIdxGo]
  | cons e rest ih =>
    intro i wi ws
    simp only [worstIdxGo]
    by_cases hc : evictScore e < ws
    · rw [if_pos hc]
      rcases ih (i + 1) i (evictScore e) with ⟨heq, hmin⟩ | ⟨j, hj, heq, hlt, hmin⟩
      · right
        refine ⟨0, by simp, by simpa using heq, by simpa using hc, ?_⟩
        intro x hx
        rcases List.mem_cons.mp hx with hx | hx
        · simp [hx]
        · simpa using hmin x hx
      · right
        refine ⟨j + 1, by simpa using Nat.succ_lt_succ hj, ?_, ?_, ?_⟩
        · rw [heq]; omega
        · exact lt_trans (by simpa using hlt) hc
        · intro x hx
          rcases List.mem_cons.mp hx with hx | hx
          · subst hx
            exact le_of_lt (by simpa using hlt)
          · simpa using hmin x hx
    · rw [if_neg hc]
      rcases ih (i + 1) wi ws with ⟨heq, hmin⟩ | ⟨j, hj, heq, hlt, hmin⟩
      · left
        refine ⟨heq, ?_⟩
        intro x hx
        rcases List.mem_cons.mp hx with hx | hx
        · rw [hx]; exact not_lt.mp hc
        · exact hmin x hx
      · right
        refine ⟨j + 1, by simpa using Nat.succ_lt_succ hj, ?_, ?_, ?_⟩
        · rw [heq]; omega
        · simpa using hlt
        · intro x hx
          rcases List.mem_cons.mp hx with hx | hx
          · rw [hx]
            exact le_trans (le_of_lt (by simpa using hlt)) (not_lt.mp hc)
          · simpa using hmin x hx

/-- `evictLeastUseful` removes exactly one entry, one whose eviction score is
minimal over the whole list (ties keep the earliest index). -/
theorem evictLeastUseful_argmin (l : List MemoryEntry) (hne : l ≠ []) :
    ∃ k, ∃ hk : k < l.length,
      evictLeastUseful l = l.eraseIdx k ∧
      ∀ x ∈ l, evictScore (l.get ⟨k, hk⟩) ≤ evictScore x := by
  match l with
  | [] => exact absurd rfl hne
  | e :: rest =>
    rcases worstIdxGo_min rest 1 0 (evictScore e) with ⟨heq, hmin⟩ | ⟨j, hj, heq, hlt, hmin⟩
    · refine ⟨0, by simp, ?_, ?_⟩
      · simp [evictLeastUseful, heq]
      · intro x hx
        rcases List.mem_cons.mp hx with hx | hx
        · simp [hx]
        · simpa using hmin x hx
    · refine ⟨j + 1, by simpa using Nat.succ_lt_succ hj, ?_, ?_⟩
      · simp only [evictLeastUseful, heq]
        congr 1
        omega
      · intro x hx
        rcases List.mem_cons.mp hx with hx | hx
        · subst hx
          simpa using le_of_lt hlt
        · simpa using hmin x hx

theorem mem_eraseIdx_of_mem_of_ne {a : MemoryEntry} :
    ∀ (l : List MemoryEntry) (k : ℕ) (hk : k < l.length),
      a ∈ l → a ≠ l.get ⟨k, hk⟩ → a ∈ l.eraseIdx k := by
  intro l
  induction l with
  | nil => intro k hk ha; simp at ha
  | cons b t ih =>
    intro k hk ha hne
    match k with
    | 0 =>
      rcases List.mem_cons.mp ha with ha | ha
      · exact absurd (by simpa using ha) hne
      · simpa [List.eraseIdx] using ha
    | k + 1 =>
      rcases List.mem_cons.mp ha with ha | ha
      · simp [List.eraseIdx, ha]
      · have hk' : k < t.length := by simpa using hk
        have := ih k hk' ha (by simpa using hne)
        simp [List.eraseIdx, this]

theorem evictScore_lt_1000 (e : MemoryEntry) (h1 : e.timestamp < 10000000000000)
    (hrc : e.retrievalCount = 0) : evictScore e < 1000 := by
  rw [evictScore_eq, hrc]
  push_cast
  rw [zero_mul, zero_add, div_lt_iff₀ (by norm_num : (0:ℚ) < 10000000000)]
  have : (e.timestamp : ℚ) < 10000000000000 := by exact_mod_cast h1
  linarith

theorem evictScore_ge_1000 (e : MemoryEntry) (h0 : 0 ≤ e.timestamp)
    (hrc : 1 ≤ e.retrievalCount) : (1000 : ℚ) ≤ evictScore e := by
  rw [evictScore_eq]
  have hc : (1 : ℚ) ≤ (e.retrievalCount : ℚ) := by exact_mod_cast hrc
  have ht : (0 : ℚ) ≤ (e.timestamp : ℚ) := by exact_mod_cast h0
  have hdiv : (0 : ℚ) ≤ (e.timestamp : ℚ) / 10000000000 := by positivity
  nlinarith

theorem evictScore_lt_of_eq_count {e1 e2 : MemoryEntry}
    (h : e1.retrievalCount = e2.retrievalCount) (hts : e1.timestamp < e2.timestamp) :
    evictScore e1 < evictScore e2 := by
  rw [evictScore_eq, evictScore_eq, h]
  have h1 : (e1.timestamp : ℚ) < (e2.timestamp : ℚ) := by exact_mod_cast hts
  have h2 : (e1.timestamp : ℚ) / 10000000000 < (e2.timestamp : ℚ) / 10000000000 := by
    gcongr
  linarith

/-! ### Admission filter and summarization of `MemoryRagService.addMemory` -/

/-- Consume one-or-more whitespace characters (regex `\s+`). -/
def wsPlus (s : Str) : Option Str :=
  match s with
  | c :: rest => if isWsChar c then some (rest.dropWhile isWsChar) else none
  | [] => none

/-- Match `stem`, an optional plural `s`, mandatory whitespace, then any of
the day-word alternatives as a prefix (regex fragments like
`buenos?\s+d[ií]as?` used with `test`, where a trailing `s?` never affects
whether a match exists). -/
def greetingPhrase (stem : Str) (alts : List Str) (lc : Str) : Bool :=
  if stem.isPrefixOf lc then
    let r1 := lc.drop stem.length
    let r2 := match r1 with
      | 's' :: t => t
      | _ => r1
    match wsPlus r2 with
    | none => false
    | some r3 => alts.any (fun a => a.isPrefixOf r3)
  else false

/-- The first trivial pattern of `MemoryRagService.isTrivialExchange`:
`/^(hola|chau|buenas|hey|hi|hello|buenos?\s+d[ií]as?|buenas?\s+tardes?|buenas?\s+noches?)/i`
applied to the trimmed user turn (`lc` is already lower-cased). -/
def greetingTest (lc : Str) : Bool :=
  (["hola", "chau", "buenas", "hey", "hi", "hello"].map String.toList).any
      (fun p => p.isPrefixOf lc)
    || greetingPhrase "bueno".toList ["dia".toList, "día".toList] lc
    || greetingPhrase "buena".toList ["tarde".toList, "noche".toList] lc

/-- The second trivial pattern:
`/^(gracias|thanks|ok|dale|genial|perfecto|listo|bien)$/i` (full match). -/
def ackTest (lc : Str) : Bool :=
  (["gracias", "thanks", "ok", "dale", "genial", "perfecto", "listo", "bien"].map
    String.toList).contains lc

/-- The assistant-side deny list (substring, case-insensitive): each regex
alternative spelled out as the literal strings it can match. -/
def dontKnowPhrases : List Str :=
  (["no sé", "no tengo", "no puedo",
    "no encontré", "no encontre", "no encontró",
    "se me trabó", "se me trabo",
    "probá de nuevo", "proba de nuevo",
    "me quedé sin créditos", "me quedé sin creditos",
    "me quede sin créditos", "me quede sin creditos",
    "me quedó sin créditos", "me quedó sin creditos"].map String.toList)

/-- `MemoryRagService.isTrivialExchange`. -/
def isTrivialExchange (userMsg assistantMsg : Str) : Bool :=
  let lc := (jsTrim userMsg).map lowerChar
  if greetingTest lc || ackTest lc then true
  else dontKnowPhrases.any (fun p => isSubstr p ((assistantMsg).map lowerChar))

example : isTrivialExchange "Buenos días!".toList "hola".toList = true := by decide
example : isTrivialExchange "cuántas facturas hay".toList
    "No sé la respuesta".toList = true := by decide
example : isTrivialExchange "cuántas facturas hay".toList
    "Hay 12 facturas".toList = false := by decide

/-- `MemoryRagService.generateSummary`: on an LLM response, the trimmed
content (empty content collapses to `none` through `summary || null`); on a
thrown error, the fallback `userMsg - assistantMsg` truncated to 150
characters. -/
def generateSummaryModel (userMsg assistantMsg : Str) (llm : Except Unit Str) :
    Option Str :=
  match llm with
  | .ok response =>
    let s := jsTrim response
    if s.isEmpty then none else some s
  | .error _ => some ((userMsg ++ " - ".toList ++ assistantMsg).take 150)

/-- `MemoryRagService.addMemory` as a pure transition on the entry list.
External effects are inputs: `llm` is the summarizer call, `embedOutcome`
the (single) `embedQuery` call made on the summary, `hasInstance` whether
`ragService.getEmbeddingsInstance()` is non-null, `connected` the value of
`ragService.isOllamaConnected()`, and `now` the clock.  A thrown embedding
call (`embedOutcome = .error`) is caught by the surrounding `try`, which
drops the memory. -/
noncomputable def addMemory (entries : List MemoryEntry) (userMsg assistantMsg : Str)
    (llm : Except Unit Str) (embedOutcome : Except Unit (List ℚ))
    (hasInstance connected : Bool) (now : ℤ) : List MemoryEntry :=
  if userMsg.length + assistantMsg.length < 30 then entries
  else if isTrivialExchange userMsg assistantMsg then entries
  else
    match generateSummaryModel userMsg assistantMsg llm with
    | none => entries
    | some summary =>
      if summary.length < 10 then entries
      else
        match entries.getLast? with
        | some lastEntry =>
          if lastEntry.embedding ≠ [] ∧ hasInstance = true then
            match embedOutcome with
            | .error _ => entries
            | .ok newEmbedding =>
              if (0.9 : ℝ) < memCosineSimilarity newEmbedding lastEntry.embedding then
                entries
              else addEntry entries summary newEmbedding now
          else
            if hasInstance = true ∧ connected = true then
              match embedOutcome with
              | .error _ => entries
              | .ok embedding => addEntry entries summary embedding now
            else addEntry entries summary [] now
        | none =>
          if hasInstance = true ∧ connected = true then
            match embedOutcome with
            | .error _ => entries
            | .ok embedding => addEntry entries summary embedding now
          else addEntry entries summary [] now

/-! ### `MemoryRagService.backfillEmbeddings` -/

/-- The backfill loop: walk the entries in order; entries that already have
an embedding are untouched; the first failing embedding call sets the
stopped flag (the source's `break` over the filtered `toBackfill` list) and
every later missing embedding is left alone. -/
def backfillGo (embed : Str → Except Unit (List ℚ)) :
    Bool → List MemoryEntry → List MemoryEntry
  | _, [] => []
  | stopped, e :: rest =>
    if e.embedding ≠ [] then e :: backfillGo embed stopped rest
    else if stopped then e :: backfillGo embed stopped rest
    else
      match embed e.summary with
      | .ok v => { e with embedding := v } :: backfillGo embed false rest
      | .error _ => e :: backfillGo embed true rest

/-- `MemoryRagService.backfillEmbeddings`: requires an embeddings instance
and connectivity, then runs the loop (the source's early return when nothing
needs backfilling leaves the list unchanged, which agrees with the loop). -/
def backfillEmbeddings (hasInstance connected : Bool)
    (embed : Str → Except Unit (List ℚ)) (entries : List MemoryEntry) :
    List MemoryEntry :=
  if hasInstance = false ∨ connected = false then entries
  else backfillGo embed false entries

/-! ### `MemoryRagService.retrieveMemories` -/

/-- One scored candidate: the original position in the entry list (JavaScript
object identity is positional here), the entry, its raw cosine similarity and
its blended final score. -/
structure ScoredMem where
  idx : ℕ
  entry : MemoryEntry
  similarity : ℝ
  finalScore : ℝ

/-- Descending order on blended scores, modelling the stable
`sort((a, b) => b.finalScore - a.finalScore)`. -/
def finalGE (x y : ScoredMem) : Prop := y.finalScore ≤ x.finalScore

noncomputable instance : DecidableRel finalGE :=
  fun x y => inferInstanceAs (Decidable (y.finalScore ≤ x.finalScore))

instance : IsTotal ScoredMem finalGE := ⟨fun x y => le_total y.finalScore x.finalScore⟩

instance : IsTrans ScoredMem finalGE := ⟨fun _ _ _ h h' => le_trans h' h⟩

/-- The `validEntries` filter with positions attached. -/
def validIdx (entries : List MemoryEntry) : List (ℕ × MemoryEntry) :=
  entries.enum.filter (fun p => p.2.embedding ≠ [])

/-- The scoring map of `retrieveMemories`:
`similarity * 0.85 + recencyFactor * 0.15` with
`recencyFactor = max(0, 1 - ageDays / 7)` and
`ageDays = (now - timestamp) / (1000*60*60*24)`. -/
noncomputable def scoreMemories (queryEmbedding : List ℚ) (now : ℤ)
    (entries : List MemoryEntry) : List ScoredMem :=
  (validIdx entries).map (fun p =>
    let similarity := memCosineSimilarity queryEmbedding p.2.embedding
    let ageDays : ℝ := ((now : ℝ) - (p.2.timestamp : ℝ)) / (1000 * 60 * 60 * 24)
    let recencyFactor : ℝ := max 0 (1 - ageDays / 7)
    ⟨p.1, p.2, similarity, similarity * 0.85 + recencyFactor * 0.15⟩)

/-- Sort by final score, filter by the raw-similarity threshold 0.55, take
the top `topK`. -/
noncomputable def selectMemories (queryEmbedding : List ℚ) (now : ℤ) (topK : ℕ)
    (entries : List MemoryEntry) : List ScoredMem :=
  ((List.insertionSort finalGE (scoreMemories queryEmbedding now entries)).filter
    (fun s => 0.55 ≤ s.similarity)).take topK

/-- The numbered-list block returned to the orchestrator. -/
def memoryBlock (summaries : List Str) : Str :=
  "Contexto relevante previo:\n".toList
    ++ List.intercalate ['\n']
        (summaries.enum.map (fun p => natStr (p.1 + 1) ++ ". ".toList ++ p.2))
    ++ "\nUsá esta info solo si es relevante. Ignorala si no aplica.".toList

/-- `MemoryRagService.retrieveMemories` as a pure function returning the
formatted context (or `none`) together with the updated entry list
(`retrievalCount` incremented on each returned entry).  `queryEmbed` is the
outcome of the `embedQuery` call on the query; a thrown call is caught and
returns `null` with the store untouched. -/
noncomputable def retrieveMemories (hasInstance connected : Bool)
    (queryEmbed : Except Unit (List ℚ)) (now : ℤ) (topK : ℕ)
    (entries : List MemoryEntry) : Option Str × List MemoryEntry :=
  if hasInstance = false ∨ connected = false then (none, entries)
  else if (entries.filter (fun e => e.embedding ≠ [])).isEmpty then (none, entries)
  else
    match queryEmbed with
    | .error _ => (none, entries)
    | .ok queryEmbedding =>
      let relevant := selectMemories queryEmbedding now topK entries
      if relevant.isEmpty then (none, entries)
      else
        let sel := relevant.map ScoredMem.idx
        let updated := entries.enum.map (fun p =>
          if p.1 ∈ sel then { p.2 with retrievalCount := p.2.retrievalCount + 1 }
          else p.2)
        (some (memoryBlock (relevant.map (fun s => s.entry.summary))), updated)

/-! ## RagService (`rag.service.ts`): vector retrieval engine -/

/-- An embedded chunk of the vector store. -/
structure VectorEntry where
  content : Str
  embedding : List ℚ
  source : Str
deriving DecidableEq

/-- The persisted vector-store cache (`vector-store.json`).  `indexedFiles`
models the `filename → mtimeMs` record (keys unique, as JavaScript object
keys are); `Date` modification times are integer milliseconds. -/
structure VectorStoreCache where
  entries : List VectorEntry
  indexedFiles : List (Str × ℤ)
  embeddingModel : Str
deriving DecidableEq

/-- The configured embedding model name. -/
def embeddingModelName : Str := "nomic-embed-text".toList

/-- JavaScript object lookup `cache.indexedFiles[file]`. -/
def lookupMtime : List (Str × ℤ) → Str → Option ℤ
  | [], _ => none
  | (k, v) :: rest, f => if k = f then some v else lookupMtime rest f

/-- `RagService.loadFromCache` as a predicate on its inputs: `cache` is the
parsed cache file (`none` for a missing or unreadable file),
`knowledgeDirExists` is `fs.existsSync(knowledgePath)`, and `currentFiles`
lists the currently present `.txt`/`.md` files with their mtimes.  The result
is whether the cache is accepted (entries restored and re-indexing skipped).
A cached mtime of `0` is falsy in `!cache.indexedFiles[file]` and so is
treated as missing, exactly as in the source. -/
def loadFromCache (cache : Option VectorStoreCache) (knowledgeDirExists : Bool)
    (currentFiles : List (Str × ℤ)) : Bool :=
  match cache with
  | none => false
  | some c =>
    if c.embeddingModel ≠ embeddingModelName then false
    else if knowledgeDirExists = true ∧ currentFiles.length ≠ c.indexedFiles.length then
      false
    else if knowledgeDirExists = true ∧ currentFiles.any (fun f =>
        match lookupMtime c.indexedFiles f.1 with
        | none => true
        | some t => t = 0 ∨ t ≠ f.2) then
      false
    else decide (c.entries.length > 0)

/-! ### `RagService.indexDocuments` -/

/-- The outcome record `{ success, message }`. -/
structure IndexOutcome where
  success : Bool
  message : Str
deriving DecidableEq

/-- The mutable state of a `RagService` instance that `indexDocuments`
reads or writes.  `hasEmbeddings` models `this.embeddings !== null`. -/
structure RagState where
  entries : List VectorEntry
  indexedFiles : List (Str × ℤ)
  lastIndexed : Option ℤ
  ollamaConnected : Bool
  hasEmbeddings : Bool
  indexing : Bool

/-- The environment of one `indexDocuments` run: the Ollama probe outcome,
the filesystem (directory existence and the `.txt`/`.md`-filterable listing
with mtimes and contents), the text splitter, the per-batch embedding call
and the clock. -/
structure IndexEnv where
  checkOllama : Bool
  dirExists : Bool
  files : List (Str × ℤ × Str)
  splitText : Str → List Str
  embedBatch : List Str → Except Unit (List (List ℚ))
  now : ℤ

/-- JavaScript `String.prototype.endsWith`. -/
def strEndsWith (suffix s : Str) : Bool := suffix.isSuffixOf s

/-- Group chunks into batches of 10 (`batchSize`), preserving order. -/
def batchedGo (cap : ℕ) : List α → List α → List (List α)
  | [], acc => if acc.isEmpty then [] else [acc.reverse]
  | x :: rest, acc =>
    if cap ≤ 1 then (x :: acc).reverse :: batchedGo 10 rest []
    else batchedGo (cap - 1) rest (x :: acc)

def batched (l : List α) : List (List α) := batchedGo 10 l []

example : batched (List.range 23) = [List.range 10,
    (List.range 10).map (· + 10), [20, 21, 22]] := by decide

/-- Embed each batch in order, failing as soon as one batch call fails. -/
def embedBatches (embedBatch : List Str → Except Unit (List (List ℚ))) :
    List (List (Str × Str)) → Except Unit (List (List ℚ))
  | [] => .ok []
  | b :: rest =>
    match embedBatch (b.map Prod.fst) with
    | .error e => .error e
    | .ok vs =>
      match embedBatches embedBatch rest with
      | .error e => .error e
      | .ok vss => .ok (vs ++ vss)

/-- `RagService.indexDocuments`: the in-flight guard, the Ollama re-check,
directory/file handling, chunking, batched embedding, and the state commit.
On the failure of any embedding batch the `catch` clears the flag and leaves
the entries untouched (the source formats the thrown message into the
result; the model keeps the fixed `Error` marker). -/
def indexDocuments (st : RagState) (env : IndexEnv) : IndexOutcome × RagState :=
  if st.indexing then (⟨false, "Ya se está indexando...".toList⟩, st)
  else
    let needsCheck := st.ollamaConnected = false ∨ st.hasEmbeddings = false
    if needsCheck ∧ env.checkOllama = false then
      (⟨false, "Ollama no está disponible".toList⟩, { st with ollamaConnected := false })
    else
      let st1 := if needsCheck
        then { st with ollamaConnected := true, hasEmbeddings := true }
        else st
      if env.dirExists = false then
        (⟨true, ("Carpeta knowledge/ creada. Poné archivos .txt o .md ahí y " ++
          "hacé click en Re-indexar.").toList⟩, { st1 with indexing := false })
      else
        let files := env.files.filter (fun f =>
          strEndsWith ".txt".toList f.1 || strEndsWith ".md".toList f.1)
        if files.isEmpty then
          (⟨true, "No hay archivos .txt o .md en knowledge/".toList⟩,
            { st1 with entries := [], indexedFiles := [], indexing := false })
        else
          let allChunks := files.flatMap (fun f =>
            (env.splitText f.2.2).map (fun ch => (ch, f.1)))
          let newIndexedFiles := files.map (fun f => (f.1, f.2.1))
          match embedBatches env.embedBatch (batched allChunks) with
          | .error _ => (⟨false, "Error".toList⟩, { st1 with indexing := false })
          | .ok embs =>
            let newEntries := List.zipWith
              (fun (c : Str × Str) v => VectorEntry.mk c.1 v c.2) allChunks embs
            let st2 := { st1 with
              entries := newEntries
              indexedFiles := newIndexedFiles
              lastIndexed := some env.now
              indexing := false }
            (⟨true, ("Indexados ".toList ++ natStr files.length ++ " archivos (".toList
                ++ natStr newEntries.length ++ " chunks)".toList)⟩, st2)

/-! ## SqlService (`sql.service.ts`): schema filter engine and query guard -/

structure ColumnInfo where
  name : Str
  dataType : Str
  isNullable : Bool
  columnDefault : Option Str
  isPrimaryKey : Bool
  description : Option Str
deriving DecidableEq

structure TableInfo where
  schema : Str
  name : Str
  description : Option Str
  columns : List ColumnInfo
deriving DecidableEq

structure ForeignKeyInfo where
  constraintName : Str
  sourceTable : Str
  sourceColumn : Str
  targetTable : Str
  targetColumn : Str
deriving DecidableEq

/-- The per-connection schema snapshot.  `readSchema` stores `null` (here
`none`) for empty descriptions, so an `Option` field being `some` matches the
source's truthiness checks. -/
structure SchemaInfo where
  tables : List TableInfo
  foreignKeys : List ForeignKeyInfo
  lastRefreshed : ℤ
deriving DecidableEq

/-- The Spanish stop-word list of `extractKeywords`. -/
def stopWords : List Str :=
  (["el", "la", "los", "las", "un", "una", "unos", "unas",
    "de", "del", "en", "con", "por", "para", "al", "a",
    "y", "o", "que", "se", "es", "son", "hay", "fue",
    "como", "mas", "pero", "si", "no", "me", "te", "le",
    "lo", "su", "sus", "mi", "mis", "tu", "tus",
    "este", "esta", "estos", "estas", "ese", "esa",
    "cual", "cuales", "cuanto", "cuantos", "cuantas",
    "quiero", "saber", "decime", "mostrame", "dame",
    "tiene", "tienen", "tener", "hacer", "hizo",
    "todos", "todas", "todo", "toda", "cada", "otro"].map String.toList)

/-- The suffix list of `getStems`, duplicates included as written. -/
def stemSuffixes : List Str :=
  (["iones", "cion", "dores", "doras", "ores", "oras",
    "eros", "eras", "ajes", "ajes", "ados", "adas",
    "idos", "idas", "bles", "mente", "ando", "endo",
    "ores", "oras", "ajes", "ies", "es", "os", "as",
    "or", "er", "ar", "ir", "al", "on", "a", "o", "s"].map String.toList)

/-- `SqlService.getStems`: strip each listed suffix when at least 4
characters remain, then (for words longer than 5) add every truncation down
to 4 characters. -/
def getStems (word : Str) : List Str :=
  let suffixStems := stemSuffixes.foldl (fun acc suf =>
    if suf.isSuffixOf word ∧ word.length - suf.length ≥ 4 then
      acc ++ [word.take (word.length - suf.length)]
    else acc) []
  let truncs := if word.length > 5 then
      (List.range (word.length - 4)).map (fun k => word.take (word.length - 1 - k))
    else []
  suffixStems ++ truncs

/-- JavaScript `Set` insertion: append if not already present. -/
def insertUnique (l : List Str) (x : Str) : List Str :=
  if l.contains x then l else l ++ [x]

/-- `SqlService.extractKeywords`: strip accents and lowercase, keep
`[a-z0-9]` runs, drop short tokens and stop words, then add each word and
its stems of length ≥ 4 into an insertion-ordered set. -/
def extractKeywords (message : Str) : List Str :=
  let normalized := message.map deaccentLowerChar
  let cleaned := normalized.map (fun c =>
    if ('a' ≤ c ∧ c ≤ 'z') ∨ ('0' ≤ c ∧ c ≤ '9') ∨ isWsChar c then c else ' ')
  let words := (splitWsTokens cleaned).filter
    (fun w => w.length > 2 ∧ ¬ stopWords.contains w)
  words.foldl (fun acc w =>
    (getStems w).foldl (fun a stem =>
      if stem.length ≥ 4 then insertUnique a stem else a) (insertUnique acc w)) []

example : extractKeywords "el".toList = [] := by decide
example : extractKeywords "los de la".toList = [] := by decide
example : "vendedor".toList ∈ extractKeywords "vendedores".toList := by decide

/-- Accent-stripped lower-cased rendering of an optional description
(`(x || '').normalize('NFD')...toLowerCase()`). -/
def normDesc (d : Option Str) : Str := (d.getD []).map deaccentLowerChar

/-- The per-table score of `getFilteredSchema`: +15 for a description hit,
+10 for a table-name hit, +3 per column-name hit, +5 per column-description
hit, accumulated over every keyword. -/
def tableScore (keywords : List Str) (table : TableInfo) : ℕ :=
  let tName := table.name.map lowerChar
  let tDesc := normDesc table.description
  keywords.foldl (fun score kw =>
    let s1 := if isSubstr kw tDesc then score + 15 else score
    let s2 := if isSubstr kw tName then s1 + 10 else s1
    table.columns.foldl (fun sc col =>
      let sc1 := if isSubstr kw (col.name.map lowerChar) then sc + 3 else sc
      if isSubstr kw (normDesc col.description) then sc1 + 5 else sc1) s2) 0

/-- Descending order on table scores for the stable
`sort((a, b) => b.score - a.score)`. -/
def tblGE (x y : TableInfo × ℕ) : Prop := y.2 ≤ x.2

instance : DecidableRel tblGE := fun x y => inferInstanceAs (Decidable (y.2 ≤ x.2))

instance : IsTotal (TableInfo × ℕ) tblGE := ⟨fun x y => le_total y.2 x.2⟩

instance : IsTrans (TableInfo × ℕ) tblGE := ⟨fun _ _ _ h h' => le_trans h' h⟩

/-- One column of the compact rendering:
`name dataType [PK] ["description"]`. -/
def colText (col : ColumnInfo) : Str :=
  let s := col.name ++ ' ' :: col.dataType
  let s1 := if col.isPrimaryKey then s ++ " PK".toList else s
  match col.description with
  | some d => s1 ++ ' ' :: '"' :: (d ++ ['"'])
  | none => s1

/-- One table line of the compact rendering:
`name [-- description]: col1, col2, ...`. -/
def tableLine (table : TableInfo) : Str :=
  let desc := match table.description with
    | some d => " -- ".toList ++ d
    | none => []
  table.name ++ desc ++ ": ".toList
    ++ List.intercalate ", ".toList (table.columns.map colText)

/-- The header plus table lines, newline-joined. -/
def renderSchema (dbName : Str) (relevantTables : List TableInfo) (total : ℕ) : Str :=
  let header := "DB:".toList ++ dbName ++ " (".toList ++ natStr relevantTables.length
    ++ "/".toList ++ natStr total ++ " tablas)".toList
  List.intercalate ['\n'] (header :: relevantTables.map tableLine)

/-- JavaScript truthiness of the `userMessage` parameter: non-null and
non-empty. -/
def userMessageTruthy : Option Str → Bool
  | none => false
  | some m => ¬ m.isEmpty

/-- The table cap `MAX_TABLES`. -/
def MAX_TABLES : ℕ := 15

/-- `SqlService.getFilteredSchema`: `null` without an active connection or a
loaded non-empty schema; over the cap with a truthy message, keyword-score
the tables, drop zero scores, sort descending, truncate to the cap; over the
cap without a message, take the first `MAX_TABLES`; then render. -/
def getFilteredSchema (activeConnection : Bool) (schema : Option SchemaInfo)
    (dbName : Str) (userMessage : Option Str) : Option Str :=
  if activeConnection = false then none
  else
    match schema with
    | none => none
    | some s =>
      if s.tables.isEmpty then none
      else
        let relevantTables :=
          if s.tables.length > MAX_TABLES ∧ userMessageTruthy userMessage then
            let keywords := extractKeywords (userMessage.getD [])
            let scored := s.tables.map (fun t => (t, tableScore keywords t))
            (((List.insertionSort tblGE (scored.filter (fun p => p.2 > 0))).take
              MAX_TABLES).map Prod.fst)
          else if s.tables.length > MAX_TABLES then s.tables.take MAX_TABLES
          else s.tables
        some (renderSchema dbName relevantTables s.tables.length)

/-! ### `SqlService.executeQuery` -/

/-- What `executeQuery` decides to do before any database interaction:
reject with an error result, or send `sql` to the pool. -/
inductive ExecPlan where
  | rejected (error : Str)
  | run (sql : Str)
deriving DecidableEq

/-- The connection mode (`'query-only' | 'execute'`). -/
inductive SqlMode where
  | queryOnly
  | execute
deriving DecidableEq

/-- The forbidden statement keywords, in source order. -/
def forbiddenKeywords : List Str :=
  (["INSERT", "UPDATE", "DELETE", "DROP", "ALTER", "TRUNCATE", "CREATE",
    "GRANT", "REVOKE"].map String.toList)

/-- Trailing-semicolon stripping of `executeQuery`:
`if (safeQuery.endsWith(';')) safeQuery = safeQuery.slice(0, -1).trim()`. -/
def stripSemi (t : Str) : Str :=
  if strEndsWith [';'] t then jsTrim t.dropLast else t

/-- `SqlService.executeQuery` up to the first database call: mode, active
connection and pool guards; the forbidden-keyword prefix check on the
trimmed upper-cased query; trailing-semicolon stripping; and the `LIMIT 20`
appending when the upper-cased query has no `LIMIT` substring. -/
def executeQueryPlan (mode : SqlMode) (hasActiveConnection poolAvailable : Bool)
    (query : Str) : ExecPlan :=
  if mode ≠ SqlMode.execute then .rejected "Modo ejecución no habilitado".toList
  else if hasActiveConnection = false then .rejected "No hay conexión activa".toList
  else if poolAvailable = false then .rejected "Pool no disponible".toList
  else
    let trimmedUpper := (jsTrim query).map upperChar
    match forbiddenKeywords.find? (fun kw => kw.isPrefixOf trimmedUpper) with
    | some kw =>
      .rejected ("Operación no permitida: ".toList ++ kw
        ++ ". Solo se permiten consultas SELECT/WITH.".toList)
    | none =>
      let safeQuery := stripSemi (jsTrim query)
      if isSubstr "LIMIT".toList (safeQuery.map upperChar) then .run safeQuery
      else .run (safeQuery ++ " LIMIT 20".toList)

example : executeQueryPlan .execute true true "DROP TABLE t".toList
    = .rejected ("Operación no permitida: DROP" ++
        ". Solo se permiten consultas SELECT/WITH.").toList := by decide
example : executeQueryPlan .execute true true " select * from t ; ".toList
    = .run "select * from t LIMIT 20".toList := by decide
example : executeQueryPlan .execute true true "select 1 limit 5".toList
    = .run "select 1 limit 5".toList := by decide

/-! ## Claim theorems -/

/-- Claim C10: for every query whose trimmed upper-cased form starts with one
of the forbidden write keywords, `executeQuery` answers with an error result
and sends nothing to the database; and every query that is sent and whose
(trimmed, semicolon-stripped) upper-cased text does not contain the
substring `LIMIT` is sent with ` LIMIT 20` appended, while one that does
contain it is sent unchanged. -/
theorem sql_executeQuery_guards :
    ∀ (mode : SqlMode) (active pool : Bool) (query : Str),
      (∀ kw ∈ forbiddenKeywords,
        kw.isPrefixOf ((jsTrim query).map upperChar) = true →
        ∃ e, executeQueryPlan mode active pool query = .rejected e) ∧
      (∀ sql, executeQueryPlan mode active pool query = .run sql →
        (isSubstr "LIMIT".toList
            ((stripSemi (jsTrim query)).map upperChar) = false →
          sql = stripSemi (jsTrim query) ++ " LIMIT 20".toList) ∧
        (isSubstr "LIMIT".toList
            ((stripSemi (jsTrim query)).map upperChar) = true →
          sql = stripSemi (jsTrim query))) := by
  intro mode active pool query
  constructor
  · intro kw hkw hpre
    unfold executeQueryPlan
    split_ifs with h1 h2 h3
    · exact ⟨_, rfl⟩
    · exact ⟨_, rfl⟩
    · exact ⟨_, rfl⟩
    · cases hfind : forbiddenKeywords.find? (fun k =>
        k.isPrefixOf ((jsTrim query).map upperChar)) with
      | none =>
        have := List.find?_eq_none.mp hfind kw hkw
        simp [hpre] at this
      | some kw' =>
        simp only [hfind]
        exact ⟨_, rfl⟩
  · intro sql hrun
    unfold executeQueryPlan at hrun
    by_cases h1 : mode ≠ SqlMode.execute
    · rw [if_pos h1] at hrun
      simp at hrun
    · rw [if_neg h1] at hrun
      by_cases h2 : active = false
      · rw [if_pos h2] at hrun
        simp at hrun
      · rw [if_neg h2] at hrun
        by_cases h3 : pool = false
        · rw [if_pos h3] at hrun
          simp at hrun
        · rw [if_neg h3] at hrun
          cases hfind : forbiddenKeywords.find? (fun k =>
            k.isPrefixOf ((jsTrim query).map upperChar)) with
          | none =>
            simp only [hfind] at hrun
            by_cases hlim : isSubstr "LIMIT".toList
                ((stripSemi (jsTrim query)).map upperChar) = true
            · rw [if_pos hlim] at hrun
              constructor
              · intro hfalse
                rw [hfalse] at hlim
                cases hlim
              · intro _
                injection hrun with h
                exact h.symm
            · rw [if_neg hlim] at hrun
              constructor
              · intro _
                injection hrun with h
                exact h.symm
              · intro htrue
                exact absurd htrue hlim
          | some kw' =>
            simp only [hfind] at hrun
            simp at hrun

theorem sql_executeQuery_guards_witness :
    ∃ e, executeQueryPlan .execute true true "DROP TABLE usuarios".toList
      = .rejected e :=
  (sql_executeQuery_guards .execute true true "DROP TABLE usuarios".toList).1
    "DROP".toList (by decide) (by decide)

/-- Claim C9: at most one indexing pass is in flight per instance: when the
`indexing` flag is set, `indexDocuments` returns the explicit
`Ya se está indexando...` failure result and the state (entries, indexed
files, flags) is completely unchanged. -/
theorem rag_indexDocuments_inflight :
    ∀ (st : RagState) (env : IndexEnv), st.indexing = true →
      indexDocuments st env = (⟨false, "Ya se está indexando...".toList⟩, st) := by
  intro st env h
  unfold indexDocuments
  rw [if_pos h]

def c9State : RagState := ⟨[⟨"c".toList, [], "a.txt".toList⟩], [("a.txt".toList, 3)],
  some 7, true, true, true⟩

def c9Env : IndexEnv := ⟨true, true, [], fun _ => [], fun _ => .ok [], 11⟩

theorem rag_indexDocuments_inflight_witness :
    indexDocuments c9State c9Env
      = (⟨false, "Ya se está indexando...".toList⟩, c9State) :=
  rag_indexDocuments_inflight c9State c9Env rfl

/-! Claim C2 -/

def c2Cache : VectorStoreCache :=
  ⟨[⟨"contenido de prueba".toList, [], "a.txt".toList⟩],
   [("a.txt".toList, 5)], embeddingModelName⟩

/-- Counterexample for claim C2: when the knowledge directory does not exist,
`loadFromCache` skips both file checks and accepts the cache even though the
set of currently-present source files (empty) does not have the same
cardinality as the cached file set. -/
theorem rag_loadFromCache_only_if_cx :
    loadFromCache (some c2Cache) false [] = true ∧
    ([] : List (Str × ℤ)).length ≠ c2Cache.indexedFiles.length := by
  constructor
  · decide
  · decide

/-- Claim C2 (amended): when the knowledge directory exists, the cache is
accepted only if the cached embedding model equals the configured one, the
current file count equals the cached file count, and every current file's
modification timestamp exactly equals its cached value; when the directory
is missing, the file checks are skipped. -/
theorem rag_loadFromCache_only_if :
    ∀ (c : VectorStoreCache) (currentFiles : List (Str × ℤ)),
      loadFromCache (some c) true currentFiles = true →
        c.embeddingModel = embeddingModelName ∧
        currentFiles.length = c.indexedFiles.length ∧
        ∀ f ∈ currentFiles, lookupMtime c.indexedFiles f.1 = some f.2 := by
  intro c currentFiles h
  simp only [loadFromCache, true_and] at h
  by_cases h1 : c.embeddingModel ≠ embeddingModelName
  · rw [if_pos h1] at h
    cases h
  · rw [if_neg h1] at h
    by_cases h2 : currentFiles.length ≠ c.indexedFiles.length
    · rw [if_pos h2] at h
      cases h
    · rw [if_neg h2] at h
      refine ⟨not_not.mp h1, not_not.mp h2, ?_⟩
      rcases Bool.eq_false_or_eq_true (currentFiles.any fun f =>
          match lookupMtime c.indexedFiles f.1 with
          | none => true
          | some t => decide (t = 0 ∨ t ≠ f.2)) with hany | hany
      · rw [if_pos hany] at h
        cases h
      · intro f hf
        have hnof := List.any_eq_false.mp hany f hf
        cases hlk : lookupMtime c.indexedFiles f.1 with
        | none =>
          rw [hlk] at hnof
          simp at hnof
        | some t =>
          rw [hlk] at hnof
          have hnt : ¬ (t = 0 ∨ t ≠ f.2) := by simpa using hnof
          push_neg at hnt
          rw [hnt.2]

def c2Current : List (Str × ℤ) := [("a.txt".toList, 5)]

theorem rag_loadFromCache_only_if_witness :
    loadFromCache (some c2Cache) true c2Current = true ∧
    c2Current.length = c2Cache.indexedFiles.length :=
  ⟨by decide, (rag_loadFromCache_only_if c2Cache c2Current (by decide)).2.1⟩

/-! Claim C1 -/

def c1Table (i : ℕ) : TableInfo :=
  ⟨"public".toList, 't' :: natStr i, none,
   [⟨"id".toList, "integer".toList, false, none, true, none⟩]⟩

def c1Schema : SchemaInfo := ⟨(List.range 16).map c1Table, [], 0⟩

/-- Counterexample for claim C1: on a 16-table schema, a query that yields no
keywords (`"el"` is a stop word below the length bound) makes the keyword
filter drop every table (all scores are 0), so `getFilteredSchema` returns
only the header reporting `0/16` tables — not the first `MAX_TABLES` tables
in catalog order, which is what the no-message path returns. -/
theorem sql_getFilteredSchema_no_keywords_cx :
    getFilteredSchema true (some c1Schema) "db".toList (some "el".toList)
        = some "DB:db (0/16 tablas)".toList ∧
    getFilteredSchema true (some c1Schema) "db".toList (some "el".toList)
        ≠ getFilteredSchema true (some c1Schema) "db".toList none := by
  constructor
  · decide
  · decide

/-- Claim C1 (amended): on a schema above the 15-table cap, a non-empty query
from which no keywords are extracted makes `getFilteredSchema` return the
header-only rendering of an empty table selection (zero tables), whereas
only a null/empty message takes the first-`MAX_TABLES` path. -/
theorem sql_getFilteredSchema_no_keywords :
    ∀ (s : SchemaInfo) (dbName : Str) (m : Str),
      s.tables.length > MAX_TABLES →
      m.isEmpty = false →
      extractKeywords m = [] →
      getFilteredSchema true (some s) dbName (some m)
        = some (renderSchema dbName [] s.tables.length) := by
  intro s dbName m hlen hne hk
  have hnonempty : ¬ (s.tables.isEmpty = true) := by
    cases htab : s.tables with
    | nil => rw [htab] at hlen; simp [MAX_TABLES] at hlen
    | cons a t => simp
  have hcond : s.tables.length > MAX_TABLES ∧ userMessageTruthy (some m) = true := by
    refine ⟨hlen, ?_⟩
    simp [userMessageTruthy, hne]
  have hscore : ∀ t, tableScore (extractKeywords m) t = 0 := by
    intro t
    simp only [hk, tableScore, List.foldl_nil]
  have hfilter : (s.tables.map (fun t =>
      (t, tableScore (extractKeywords ((some m).getD [])) t))).filter
        (fun p => p.2 > 0) = [] := by
    rw [List.filter_eq_nil_iff]
    intro p hp
    rcases List.mem_map.mp hp with ⟨t, _, rfl⟩
    simp [hscore t]
  simp only [getFilteredSchema]
  rw [if_neg (by simp : ¬ (true = false)), if_neg hnonempty, if_pos hcond, hfilter]
  simp [List.insertionSort]

theorem sql_getFilteredSchema_no_keywords_witness :
    getFilteredSchema true (some c1Schema) "erp".toList (some "que".toList)
      = some (renderSchema "erp".toList [] c1Schema.tables.length) :=
  sql_getFilteredSchema_no_keywords c1Schema "erp".toList "que".toList
    (by decide) (by decide) (by decide)

/-! Claim C8 -/

theorem dotQ_comm : ∀ (a b : List ℚ), dotQ a b = dotQ b a := by
  intro a
  induction a with
  | nil => intro b; cases b <;> simp [dotQ]
  | cons x t ih =>
    intro b
    cases b with
    | nil => simp [dotQ]
    | cons y u =>
      simp only [dotQ, List.zipWith_cons_cons, List.sum_cons]
      rw [mul_comm]
      have := ih u
      simp only [dotQ] at this
      rw [this]

theorem dotQ_self (a : List ℚ) : dotQ a a = normSqQ a := by
  induction a with
  | nil => simp [dotQ, normSqQ]
  | cons x t ih =>
    simp only [dotQ, normSqQ, List.zipWith_cons_cons, List.map_cons, List.sum_cons]
    simp only [dotQ, normSqQ] at ih
    rw [ih]

theorem normSqQ_nonneg (a : List ℚ) : 0 ≤ normSqQ a := by
  induction a with
  | nil => simp [normSqQ]
  | cons x t ih =>
    simp only [normSqQ, List.map_cons, List.sum_cons]
    have hx : 0 ≤ x * x := mul_self_nonneg x
    simp only [normSqQ] at ih
    linarith

theorem normSqQ_pos (a : List ℚ) (h : ∃ x ∈ a, x ≠ 0) : 0 < normSqQ a := by
  induction a with
  | nil => simp at h
  | cons x t ih =>
    simp only [normSqQ, List.map_cons, List.sum_cons]
    rcases h with ⟨y, hy, hy0⟩
    rcases List.mem_cons.mp hy with hy | hy
    · have hx : 0 < x * x := mul_self_pos.mpr (hy ▸ hy0)
      have ht : 0 ≤ normSqQ t := normSqQ_nonneg t
      simp only [normSqQ] at ht
      linarith
    · have ht : 0 < normSqQ t := ih ⟨y, hy, hy0⟩
      have hx : 0 ≤ x * x := mul_self_nonneg x
      simp only [normSqQ] at ht
      linarith

theorem cosineSimilarity_self (a : List ℚ) (h : ∃ x ∈ a, x ≠ 0) :
    cosineSimilarity a a = 1 := by
  simp only [cosineSimilarity]
  rw [if_neg (by simp)]
  have hpos : 0 < normSqQ a := normSqQ_pos a h
  have hposR : (0 : ℝ) < ((normSqQ a : ℚ) : ℝ) := by exact_mod_cast hpos
  have hsq : Real.sqrt ((normSqQ a : ℚ) : ℝ) * Real.sqrt ((normSqQ a : ℚ) : ℝ)
      = ((normSqQ a : ℚ) : ℝ) := Real.mul_self_sqrt (le_of_lt hposR)
  rw [if_neg (by rw [hsq]; exact ne_of_gt hposR)]
  have hd : (dotQ a a : ℚ) = normSqQ a := dotQ_self a
  rw [hd, hsq]
  exact div_self (ne_of_gt hposR)

theorem memCosine_eq_cosine (a b : List ℚ) :
    memCosineSimilarity a b = cosineSimilarity a b := by
  simp only [memCosineSimilarity, cosineSimilarity]
  by_cases hlen : a.length = b.length
  · by_cases ha : a.length = 0
    · have ha' : a = [] := List.length_eq_zero.mp ha
      have hb' : b = [] := List.length_eq_zero.mp (hlen ▸ ha)
      subst ha'
      subst hb'
      simp [normSqQ]
    · have h1 : ¬ (a.length ≠ b.length ∨ a.length = 0) := by tauto
      have h2 : ¬ (a.length ≠ b.length) := by simp [hlen]
      rw [if_neg h1, if_neg h2]
  · rw [if_pos (Or.inl hlen), if_pos hlen]

theorem cosineSimilarity_comm (a b : List ℚ) :
    cosineSimilarity a b = cosineSimilarity b a := by
  simp only [cosineSimilarity]
  by_cases hlen : a.length = b.length
  · have h1 : ¬ (a.length ≠ b.length) := by simp [hlen]
    have h2 : ¬ (b.length ≠ a.length) := by simp [hlen]
    rw [if_neg h1, if_neg h2]
    rw [dotQ_comm a b,
      mul_comm (Real.sqrt ((normSqQ a : ℚ) : ℝ)) (Real.sqrt ((normSqQ b : ℚ) : ℝ))]
  · rw [if_pos hlen, if_pos (Ne.symm hlen)]

theorem cosineSimilarity_zero_norm (a b : List ℚ)
    (h : normSqQ a = 0 ∨ normSqQ b = 0) : cosineSimilarity a b = 0 := by
  simp only [cosineSimilarity]
  by_cases hlen : a.length ≠ b.length
  · rw [if_pos hlen]
  · rw [if_neg hlen]
    have hden : Real.sqrt ((normSqQ a : ℚ) : ℝ) * Real.sqrt ((normSqQ b : ℚ) : ℝ) = 0 := by
      rcases h with h | h <;> rw [h] <;> simp
    rw [if_pos hden]

/-- Claim C8: the two cosine-similarity implementations agree; the primitive
is symmetric; it returns 1 on any non-zero vector paired with itself; and it
returns 0 whenever the lengths differ, either vector is empty, or either
norm (sum of squares) is zero. -/
theorem cosineSimilarity_properties :
    (∀ a b : List ℚ, memCosineSimilarity a b = cosineSimilarity a b) ∧
    (∀ a b : List ℚ, cosineSimilarity a b = cosineSimilarity b a) ∧
    (∀ a : List ℚ, (∃ x ∈ a, x ≠ 0) →
      cosineSimilarity a a = 1 ∧ memCosineSimilarity a a = 1) ∧
    (∀ a b : List ℚ, a.length ≠ b.length → cosineSimilarity a b = 0) ∧
    (∀ a b : List ℚ, a = [] ∨ b = [] → cosineSimilarity a b = 0) ∧
    (∀ a b : List ℚ, normSqQ a = 0 ∨ normSqQ b = 0 → cosineSimilarity a b = 0) := by
  refine ⟨memCosine_eq_cosine, cosineSimilarity_comm, ?_, ?_, ?_, cosineSimilarity_zero_norm⟩
  · intro a h
    refine ⟨cosineSimilarity_self a h, ?_⟩
    rw [memCosine_eq_cosine]
    exact cosineSimilarity_self a h
  · intro a b hlen
    simp only [cosineSimilarity]
    rw [if_pos hlen]
  · intro a b h
    rcases h with h | h
    · subst h
      apply cosineSimilarity_zero_norm
      left
      simp [normSqQ]
    · subst h
      apply cosineSimilarity_zero_norm
      right
      simp [normSqQ]

theorem cosineSimilarity_properties_witness :
    cosineSimilarity [(1 : ℚ)] [(1 : ℚ)] = 1 ∧
    cosineSimilarity [(1 : ℚ)] [(1 : ℚ), 0] = 0 :=
  ⟨(cosineSimilarity_properties.2.2.1 [(1 : ℚ)]
      ⟨1, List.mem_singleton_self 1, one_ne_zero⟩).1,
   cosineSimilarity_properties.2.2.2.1 [(1 : ℚ)] [(1 : ℚ), 0] (by simp)⟩

/-! Claim C3 -/

theorem addEntry_eq_evict (entries : List MemoryEntry) (s : Str) (emb : List ℚ)
    (now : ℤ) (hlen : entries.length = 200) :
    addEntry entries s emb now
      = evictLeastUseful (entries ++ [mkNewEntry s emb now]) := by
  unfold addEntry
  have h201 : (entries ++ [mkNewEntry s emb now]).length = 201 := by
    simp [hlen]
  rw [enforceCap, dif_pos (by rw [h201]; omega)]
  apply enforceCap_of_le
  rw [length_evictLeastUseful _ (by simp), h201]

/-- Claim C3: when a 201st entry arrives, exactly one entry is evicted — one
minimizing `retrievalCount * 1000 + timestamp / 1e10` over the 201 candidates
(first index on ties).  In particular, if all 200 existing entries have
`retrievalCount = 0` with increasing timestamps, the chronologically oldest
is evicted; and if exactly one entry has `retrievalCount = 1` while the rest
have 0 (with timestamps in the epoch-milliseconds range `[0, 1e13)`, which
holds for `Date.now()` until the year 2286), the retrieved entry survives
and an untouched entry is evicted. -/
theorem memory_eviction_policy :
    (∀ (entries : List MemoryEntry) (s : Str) (emb : List ℚ) (now : ℤ),
      entries.length = 200 →
      ∃ k, ∃ hk : k < (entries ++ [mkNewEntry s emb now]).length,
        addEntry entries s emb now = (entries ++ [mkNewEntry s emb now]).eraseIdx k ∧
        (addEntry entries s emb now).length = 200 ∧
        ∀ x ∈ entries ++ [mkNewEntry s emb now],
          ((((entries ++ [mkNewEntry s emb now]).get ⟨k, hk⟩).retrievalCount : ℚ) * 1000
              + ((((entries ++ [mkNewEntry s emb now]).get ⟨k, hk⟩).timestamp : ℚ))
                / 10000000000)
            ≤ ((x.retrievalCount : ℚ) * 1000 + (x.timestamp : ℚ) / 10000000000)) ∧
    (∀ (e0 : MemoryEntry) (restE : List MemoryEntry) (s : Str) (emb : List ℚ) (now : ℤ),
      (e0 :: restE).length = 200 →
      e0.retrievalCount = 0 →
      (∀ x ∈ restE, x.retrievalCount = 0 ∧ e0.timestamp < x.timestamp) →
      e0.timestamp < now →
      addEntry (e0 :: restE) s emb now = restE ++ [mkNewEntry s emb now]) ∧
    (∀ (entries : List MemoryEntry) (r : MemoryEntry) (s : Str) (emb : List ℚ) (now : ℤ),
      entries.length = 200 →
      r ∈ entries → r.retrievalCount = 1 →
      (∀ x ∈ entries, x = r ∨ x.retrievalCount = 0) →
      (∀ x ∈ entries, 0 ≤ x.timestamp ∧ x.timestamp < 10000000000000) →
      0 ≤ now → now < 10000000000000 →
      r ∈ addEntry entries s emb now ∧ (addEntry entries s emb now).length = 200) := by
  refine ⟨?_, ?_, ?_⟩
  · intro entries s emb now hlen
    have hne : entries ++ [mkNewEntry s emb now] ≠ [] := by simp
    obtain ⟨k, hk, heq, hmin⟩ := evictLeastUseful_argmin (entries ++ [mkNewEntry s emb now]) hne
    refine ⟨k, hk, ?_, ?_, ?_⟩
    · rw [addEntry_eq_evict entries s emb now hlen, heq]
    · rw [addEntry_eq_evict entries s emb now hlen,
        length_evictLeastUseful _ hne]
      simp [hlen]
    · intro x hx
      have := hmin x hx
      simpa only [evictScore_eq] using this
  · intro e0 restE s emb now hlen h0 hrest hnow
    have hstrict : ∀ x ∈ restE ++ [mkNewEntry s emb now], evictScore e0 < evictScore x := by
      intro x hx
      rcases List.mem_append.mp hx with hx | hx
      · exact evictScore_lt_of_eq_count ((hrest x hx).1 ▸ h0) (hrest x hx).2
      · rw [List.mem_singleton.mp hx]
        exact evictScore_lt_of_eq_count h0 hnow
    have hne : (e0 :: restE) ++ [mkNewEntry s emb now] ≠ [] := by simp
    obtain ⟨k, hk, heq, hmin⟩ :=
      evictLeastUseful_argmin ((e0 :: restE) ++ [mkNewEntry s emb now]) hne
    have hk0 : k = 0 := by
      by_contra hk0
      obtain ⟨m, rfl⟩ := Nat.exists_eq_succ_of_ne_zero hk0
      have hm : m < (restE ++ [mkNewEntry s emb now]).length := by
        simpa [Nat.succ_lt_succ_iff] using hk
      have hget : ((e0 :: restE) ++ [mkNewEntry s emb now]).get ⟨m + 1, hk⟩
          = (restE ++ [mkNewEntry s emb now]).get ⟨m, hm⟩ := by
        simp [List.cons_append]
      have hmem : ((e0 :: restE) ++ [mkNewEntry s emb now]).get ⟨m + 1, hk⟩
          ∈ restE ++ [mkNewEntry s emb now] := by
        rw [hget]
        exact List.get_mem _ _ hm
      have h1 := hstrict _ hmem
      have h2 := hmin e0 (by simp)
      exact absurd (lt_of_le_of_lt h2 h1) (lt_irrefl _)
    rw [addEntry_eq_evict (e0 :: restE) s emb now hlen, heq, hk0]
    simp [List.cons_append]
  · intro entries r s emb now hlen hr hrc hall hts hnow0 hnow1
    have hne : entries ++ [mkNewEntry s emb now] ≠ [] := by simp
    obtain ⟨k, hk, heq, hmin⟩ := evictLeastUseful_argmin (entries ++ [mkNewEntry s emb now]) hne
    have hnewmem : mkNewEntry s emb now ∈ entries ++ [mkNewEntry s emb now] := by simp
    have hminlt : evictScore ((entries ++ [mkNewEntry s emb now]).get ⟨k, hk⟩) < 1000 := by
      refine lt_of_le_of_lt (hmin _ hnewmem) ?_
      exact evictScore_lt_1000 (mkNewEntry s emb now) hnow1 rfl
    have hrge : (1000 : ℚ) ≤ evictScore r :=
      evictScore_ge_1000 r (hts r hr).1 (by omega)
    have hrne : r ≠ (entries ++ [mkNewEntry s emb now]).get ⟨k, hk⟩ := by
      intro hcontra
      rw [← hcontra] at hminlt
      exact absurd (lt_of_le_of_lt hrge hminlt) (lt_irrefl _)
    constructor
    · rw [addEntry_eq_evict entries s emb now hlen, heq]
      exact mem_eraseIdx_of_mem_of_ne _ k hk (List.mem_append_left _ hr) hrne
    · rw [addEntry_eq_evict entries s emb now hlen, length_evictLeastUseful _ hne]
      simp [hlen]

def c3Entry (i : ℕ) : MemoryEntry := ⟨"e".toList, "s".toList, [], (i : ℤ), 0⟩

def c3Rest : List MemoryEntry := (List.range 199).map (fun i => c3Entry (i + 1))

theorem memory_eviction_policy_witness :
    addEntry (c3Entry 0 :: c3Rest) "resumen".toList [] 500
      = c3Rest ++ [mkNewEntry "resumen".toList [] 500] :=
  memory_eviction_policy.2.1 (c3Entry 0) c3Rest "resumen".toList [] 500
    (by simp [c3Rest])
    rfl
    (by
      intro x hx
      simp only [c3Rest, List.mem_map, List.mem_range] at hx
      obtain ⟨i, hi, rfl⟩ := hx
      refine ⟨rfl, ?_⟩
      simp only [c3Entry]
      exact_mod_cast Nat.succ_pos i)
    (by norm_num [c3Entry])

/-! Claim C6 -/

theorem jsTrim_eq_nil_iff (l : Str) :
    jsTrim l = [] ↔ ∀ c ∈ l, isWsChar c = true := by
  unfold jsTrim
  rw [List.reverse_eq_nil_iff, List.dropWhile_eq_nil_iff]
  constructor
  · intro h c hc
    rcases List.mem_append.mp
        ((List.takeWhile_append_dropWhile (p := isWsChar) (l := l)) ▸ hc) with hm | hm
    · exact List.mem_takeWhile_imp hm
    · exact h c (List.mem_reverse.mpr hm)
  · intro h c hc
    have : c ∈ l.dropWhile isWsChar := List.mem_reverse.mp hc
    exact h c ((List.dropWhile_sublist isWsChar).subset this)

theorem mem_dropWhile_of_not_ws {c : Char} {x : Str} (hc : c ∈ x)
    (hw : isWsChar c = false) : c ∈ x.dropWhile isWsChar := by
  rcases List.mem_append.mp
      ((List.takeWhile_append_dropWhile (p := isWsChar) (l := x)) ▸ hc) with h | h
  · have := List.mem_takeWhile_imp h
    rw [hw] at this
    cases this
  · exact h

theorem mem_jsTrim_of_not_ws {c : Char} {l : Str} (hc : c ∈ l)
    (hw : isWsChar c = false) : c ∈ jsTrim l := by
  unfold jsTrim
  rw [List.mem_reverse]
  exact mem_dropWhile_of_not_ws
    (List.mem_reverse.mpr (mem_dropWhile_of_not_ws hc hw)) hw

theorem jsTrim_ne_nil_of_mem {c : Char} {l : Str} (hc : c ∈ l)
    (hw : isWsChar c = false) : jsTrim l ≠ [] := by
  intro h
  have := (jsTrim_eq_nil_iff l).mp h c hc
  rw [hw] at this
  cases this

theorem jsTrim_jsTrim_ne_nil {l : Str} (h : jsTrim l ≠ []) :
    jsTrim (jsTrim l) ≠ [] := by
  have hex : ¬ ∀ c ∈ l, isWsChar c = true := fun hall =>
    h ((jsTrim_eq_nil_iff l).mpr hall)
  push_neg at hex
  obtain ⟨c, hc, hw⟩ := hex
  have hw' : isWsChar c = false := by
    cases hb : isWsChar c
    · rfl
    · exact absurd hb hw
  exact jsTrim_ne_nil_of_mem (mem_jsTrim_of_not_ws hc hw') hw'

theorem jsTrim_append_right_ne_nil {x y : Str} (h : jsTrim y ≠ []) :
    jsTrim (x ++ y) ≠ [] := by
  have hex : ¬ ∀ c ∈ y, isWsChar c = true := fun hall =>
    h ((jsTrim_eq_nil_iff y).mpr hall)
  push_neg at hex
  obtain ⟨c, hc, hw⟩ := hex
  have hw' : isWsChar c = false := by
    cases hb : isWsChar c
    · rfl
    · exact absurd hb hw
  exact jsTrim_ne_nil_of_mem (List.mem_append_right x hc) hw'

/-- Invariant of the packing loop: if every remaining paragraph has
non-whitespace content and the buffer is empty or trims non-empty, every
emitted chunk trims non-empty. -/
theorem chunkLoop_contents (paras : List Str) :
    ∀ (buffer : Str) (idx : ℕ),
      (∀ p ∈ paras, jsTrim p ≠ []) →
      (buffer = [] ∨ jsTrim buffer ≠ []) →
      ∀ ch ∈ chunkLoop paras buffer idx, jsTrim ch.content ≠ [] := by
  induction paras with
  | nil =>
    intro buffer idx _ hbuf ch hch
    simp only [chunkLoop] at hch
    by_cases h : jsTrim buffer ≠ []
    · rw [if_pos h] at hch
      rcases List.mem_singleton.mp hch with rfl
      exact jsTrim_jsTrim_ne_nil h
    · rw [if_neg h] at hch
      cases hch
  | cons para rest ih =>
    intro buffer idx hp hbuf ch hch
    have hpara : jsTrim para ≠ [] := hp para (List.mem_cons_self _ _)
    have hprest : ∀ p ∈ rest, jsTrim p ≠ [] := fun p hm => hp p (List.mem_cons_of_mem _ hm)
    simp only [chunkLoop] at hch
    by_cases hcond : buffer.length + para.length > 500 ∧ buffer.length > 0
    · rw [if_pos hcond] at hch
      rcases List.mem_cons.mp hch with rfl | hch
      · have hbuf' : jsTrim buffer ≠ [] := by
          rcases hbuf with hbuf | hbuf
          · rw [hbuf] at hcond
            simp at hcond
          · exact hbuf
        exact jsTrim_jsTrim_ne_nil hbuf'
      · refine ih _ _ hprest (Or.inr ?_) ch hch
        exact jsTrim_append_right_ne_nil
          (by simpa using jsTrim_append_right_ne_nil (x := ['\n', '\n']) hpara)
    · rw [if_neg hcond] at hch
      refine ih _ _ hprest (Or.inr ?_) ch hch
      by_cases hempty : buffer.isEmpty
      · rw [if_pos hempty]
        exact hpara
      · rw [if_neg hempty]
        exact jsTrim_append_right_ne_nil
          (by simpa using jsTrim_append_right_ne_nil (x := ['\n', '\n']) hpara)

def c6Bad : Str := ' ' :: '\n' :: '\n' :: List.replicate 500 'x'

set_option maxRecDepth 100000 in
/-- Counterexample for claim C6: a whitespace-only paragraph followed by a
paragraph that overflows the 500-character budget is flushed as a chunk
whose content is the empty string (`' '.trim()`), so not every chunk has
non-empty content after trimming. -/
theorem knowledge_chunkText_nonempty_cx :
    (chunkText c6Bad).map KnowledgeChunk.content
      = [[], List.replicate 500 'x'] := by
  decide

/-- Claim C6 (amended): every chunk produced by `chunkText` has non-empty
content after trimming, provided every paragraph of the input (every element
of the split on blank-line runs) contains a non-whitespace character;
without that proviso a whitespace-only paragraph ahead of an over-budget
paragraph yields one empty chunk. -/
theorem knowledge_chunkText_nonempty :
    ∀ text : Str, (∀ p ∈ splitParas text, jsTrim p ≠ []) →
      ∀ ch ∈ chunkText text, jsTrim ch.content ≠ [] := by
  intro text hp ch hch
  unfold chunkText at hch
  by_cases h : jsTrim text = []
  · rw [if_pos h] at hch
    cases hch
  · rw [if_neg h] at hch
    exact chunkLoop_contents (splitParas text) [] 0 hp (Or.inl rfl) ch hch

set_option maxRecDepth 4000 in
theorem knowledge_chunkText_nonempty_witness :
    jsTrim (⟨"hola\n\nmundo querido".toList, 0⟩ : KnowledgeChunk).content ≠ [] :=
  knowledge_chunkText_nonempty "hola\n\nmundo querido".toList (by decide)
    ⟨"hola\n\nmundo querido".toList, 0⟩ (by decide)

/-! Claim C7 -/

theorem foldl_add_map_sum (f : α → ℕ) :
    ∀ (l : List α) (init : ℕ),
      l.foldl (fun a x => a + f x) init = init + (l.map f).sum := by
  intro l
  induction l with
  | nil => intro init; simp
  | cons x t ih =>
    intro init
    simp only [List.foldl_cons, List.map_cons, List.sum_cons]
    rw [ih]
    omega

theorem lexScoreRaw_eq_sum (qts cts : List Str) :
    lexScoreRaw qts cts = lexScoreSum qts cts := by
  unfold lexScoreRaw lexScoreSum
  have hfun : (fun (acc : ℕ) qt => cts.foldl (fun a ct => a + pairPoints qt ct) acc)
      = fun (acc : ℕ) qt => acc + (cts.map (fun ct => pairPoints qt ct)).sum := by
    funext acc qt
    exact foldl_add_map_sum _ cts acc
  rw [hfun]
  simpa using
    foldl_add_map_sum (fun qt => (cts.map (fun ct => pairPoints qt ct)).sum) qts 0

/-- The sorted/truncated/threshold-filtered chunk selection of
`retrieveContext`, named for the claim statement. -/
def survivorChunks (chunks : List KnowledgeChunk) (query : Str) : List ScoredChunk :=
  ((List.insertionSort scoreGE (chunks.map (fun ch =>
      ScoredChunk.mk ch.content
        (chunkScore (tokenize query) (tokenize ch.content))))).take 4).filter
    (fun r => 1 ≤ r.score)

/-- Claim C7: the normalized chunk score is the pair-points sum (2 per exact
token match, 1 per substring match either way) divided by the query token
count; `retrieveContext` returns `none` on an empty tokenized query, and
otherwise returns `none` exactly when no top-4 chunk reaches score 1.0, else
the surviving chunk contents joined by a blank line. -/
theorem knowledge_retrieveContext_pipeline :
    (∀ (qts cts : List Str),
      chunkScore qts cts = ((lexScoreSum qts cts : ℕ) : ℚ) / ((qts.length : ℕ) : ℚ)) ∧
    (∀ (chunks : List KnowledgeChunk) (query : Str),
      tokenize query = [] → retrieveContext chunks query = none) ∧
    (∀ (chunks : List KnowledgeChunk) (query : Str),
      chunks ≠ [] → tokenize query ≠ [] →
      (survivorChunks chunks query = [] → retrieveContext chunks query = none) ∧
      (survivorChunks chunks query ≠ [] →
        retrieveContext chunks query = some (List.intercalate ['\n', '\n']
          ((survivorChunks chunks query).map ScoredChunk.content)))) := by
  refine ⟨?_, ?_, ?_⟩
  · intro qts cts
    unfold chunkScore
    rw [Rat.mkRat_eq_div, lexScoreRaw_eq_sum]
    push_cast
    rfl
  · intro chunks query hq
    unfold retrieveContext
    by_cases hc : chunks.isEmpty
    · rw [if_pos hc]
    · rw [if_neg hc, if_pos (by simp [hq])]
  · intro chunks query hc hq
    have hc' : ¬ (chunks.isEmpty = true) := by simpa using hc
    have hq' : ¬ ((tokenize query).isEmpty = true) := by simpa using hq
    constructor
    · intro hs
      unfold retrieveContext
      rw [if_neg hc', if_neg hq']
      rw [if_pos ?hpos]
      case hpos =>
        show (survivorChunks chunks query).isEmpty = true
        simp [hs]
    · intro hs
      unfold retrieveContext
      rw [if_neg hc', if_neg hq']
      rw [if_neg ?hneg]
      case hneg =>
        show ¬ ((survivorChunks chunks query).isEmpty = true)
        simpa using hs
      rfl

theorem knowledge_retrieveContext_pipeline_witness :
    retrieveContext [⟨"el gato come pescado".toList, 0⟩] "¿?".toList = none :=
  knowledge_retrieveContext_pipeline.2.1 _ _ (by decide)

/-! Claim C4 -/

/-- Claim C4: `retrieveMemories` returns nothing and leaves the store alone
without an embeddings instance or connectivity; it scores exactly the
entries with a non-empty embedding, as `similarity * 0.85 + recency * 0.15`
with `recency = max(0, 1 - ageDays/7)`; the selection keeps only raw
similarity ≥ 0.55, is sorted descending by the blended score and has at most
`topK` elements; and the updated store increments `retrievalCount` exactly
on the returned entries (by position), leaving every other entry unchanged. -/
theorem memory_retrieveMemories_pipeline :
    (∀ (hasInstance connected : Bool) (qe : Except Unit (List ℚ)) (now : ℤ)
        (topK : ℕ) (entries : List MemoryEntry),
      hasInstance = false ∨ connected = false →
      retrieveMemories hasInstance connected qe now topK entries = (none, entries)) ∧
    (∀ (q : List ℚ) (now : ℤ) (entries : List MemoryEntry),
      (scoreMemories q now entries).map (fun s => (s.idx, s.entry))
        = entries.enum.filter (fun p => p.2.embedding ≠ []) ∧
      ∀ s ∈ scoreMemories q now entries,
        s.similarity = memCosineSimilarity q s.entry.embedding ∧
        s.finalScore = s.similarity * 0.85
          + max 0 (1 - (((now : ℝ) - (s.entry.timestamp : ℝ))
              / (1000 * 60 * 60 * 24)) / 7) * 0.15) ∧
    (∀ (q : List ℚ) (now : ℤ) (topK : ℕ) (entries : List MemoryEntry),
      (selectMemories q now topK entries).length ≤ topK ∧
      (∀ s ∈ selectMemories q now topK entries, (0.55 : ℝ) ≤ s.similarity) ∧
      List.Pairwise finalGE (selectMemories q now topK entries)) ∧
    (∀ (q : List ℚ) (now : ℤ) (topK : ℕ) (entries : List MemoryEntry)
        (j : ℕ), j < entries.length → ∀ dflt : MemoryEntry,
      ((retrieveMemories true true (.ok q) now topK entries).2).getD j dflt
        = if j ∈ (selectMemories q now topK entries).map ScoredMem.idx
          then { entries.getD j dflt with
                  retrievalCount := (entries.getD j dflt).retrievalCount + 1 }
          else entries.getD j dflt) := by
  refine ⟨?_, ?_, ?_, ?_⟩
  · intro hasInstance connected qe now topK entries h
    unfold retrieveMemories
    rw [if_pos h]
  · intro q now entries
    constructor
    · unfold scoreMemories validIdx
      rw [List.map_map]
      have hid : ((fun s : ScoredMem => (s.idx, s.entry)) ∘
          (fun p : ℕ × MemoryEntry =>
            let similarity := memCosineSimilarity q p.2.embedding
            let ageDays : ℝ := ((now : ℝ) - (p.2.timestamp : ℝ)) / (1000 * 60 * 60 * 24)
            let recencyFactor : ℝ := max 0 (1 - ageDays / 7)
            ScoredMem.mk p.1 p.2 similarity
              (similarity * 0.85 + recencyFactor * 0.15)))
          = id := by
        funext p
        cases p
        rfl
      rw [hid, List.map_id]
    · intro s hs
      unfold scoreMemories at hs
      rcases List.mem_map.mp hs with ⟨p, hp, rfl⟩
      exact ⟨rfl, rfl⟩
  · intro q now topK entries
    refine ⟨?_, ?_, ?_⟩
    · unfold selectMemories
      exact List.length_take_le _ _
    · intro s hs
      unfold selectMemories at hs
      have hs' := List.mem_of_mem_take hs
      have hp := (List.mem_filter.mp hs').2
      simpa using hp
    · unfold selectMemories
      have hsorted : List.Pairwise finalGE
          (List.insertionSort finalGE (scoreMemories q now entries)) :=
        List.sorted_insertionSort finalGE _
      exact List.Pairwise.sublist
        ((List.take_sublist _ _).trans (List.filter_sublist _)) hsorted
  · intro q now topK entries j hj dflt
    unfold retrieveMemories
    rw [if_neg (by simp)]
    by_cases hv : (entries.filter (fun e => e.embedding ≠ [])).isEmpty = true
    · rw [if_pos hv]
      have hval : validIdx entries = [] := by
        unfold validIdx
        rw [List.filter_eq_nil_iff]
        intro p hp
        have hmem : p.2 ∈ entries := by
          have : p.2 ∈ entries.enum.map Prod.snd := List.mem_map_of_mem Prod.snd hp
          simpa [List.enum_map_snd] using this
        have hfe := List.filter_eq_nil_iff.mp (List.isEmpty_iff.mp hv) p.2 hmem
        simpa using hfe
      have hsel : selectMemories q now topK entries = [] := by
        unfold selectMemories scoreMemories
        rw [hval]
        simp [List.insertionSort]
      rw [hsel]
      simp
    · rw [if_neg hv]
      split
      · rename_i heq
        cases heq
      · rename_i qe heq
        injection heq with heq2
        subst heq2
        by_cases hrel : (selectMemories q now topK entries).isEmpty = true
        · rw [if_pos hrel]
          have hnil : selectMemories q now topK entries = [] := List.isEmpty_iff.mp hrel
          rw [hnil]
          simp
        · rw [if_neg hrel]
          have hlen2 : j < (entries.enum.map (fun p =>
              if p.1 ∈ (selectMemories q now topK entries).map ScoredMem.idx
              then { p.2 with retrievalCount := p.2.retrievalCount + 1 }
              else p.2)).length := by
            rw [List.length_map, List.enum_length]
            exact hj
          rw [List.getD_eq_getElem _ _ hlen2, List.getElem_map, List.getElem_enum,
            List.getD_eq_getElem _ _ hj]


theorem memory_retrieveMemories_pipeline_witness :
    retrieveMemories false true (.ok [(1 : ℚ)]) 0 3 [] = (none, []) :=
  memory_retrieveMemories_pipeline.1 false true (.ok [(1 : ℚ)]) 0 3 [] (Or.inl rfl)

/-! Claim C5 -/

theorem backfillGo_stopped (embed : Str → Except Unit (List ℚ)) :
    ∀ l : List MemoryEntry, backfillGo embed true l = l := by
  intro l
  induction l with
  | nil => rfl
  | cons e rest ih =>
    by_cases he : e.embedding ≠ []
    · simp [backfillGo, he, ih]
    · simp [backfillGo, he, ih]

theorem backfillGo_length (embed : Str → Except Unit (List ℚ)) :
    ∀ (b : Bool) (l : List MemoryEntry), (backfillGo embed b l).length = l.length := by
  intro b l
  induction l generalizing b with
  | nil => cases b <;> rfl
  | cons e rest ih =>
    cases b
    · simp only [backfillGo]
      by_cases he : e.embedding ≠ []
      · rw [if_pos he]
        simp [ih]
      · rw [if_neg he, if_neg (by simp : ¬ (false = true))]
        cases hemb : embed e.summary with
        | ok v => simp [hemb, ih]
        | error u => simp [hemb, ih]
    · rw [backfillGo_stopped]

theorem backfillGo_false_spec (embed : Str → Except Unit (List ℚ)) :
    ∀ (l : List MemoryEntry) (j : ℕ) (dflt : MemoryEntry), j < l.length →
      ((l.getD j dflt).embedding ≠ [] →
        (backfillGo embed false l).getD j dflt = l.getD j dflt) ∧
      ((l.getD j dflt).embedding = [] →
        (∃ i, i < j ∧ (l.getD i dflt).embedding = []
            ∧ embed ((l.getD i dflt).summary) = .error ()) →
        (backfillGo embed false l).getD j dflt = l.getD j dflt) ∧
      ((l.getD j dflt).embedding = [] →
        (∀ i, i < j → (l.getD i dflt).embedding = [] →
            ∃ v, embed ((l.getD i dflt).summary) = .ok v) →
        (backfillGo embed false l).getD j dflt
          = match embed ((l.getD j dflt).summary) with
            | .ok v => { l.getD j dflt with embedding := v }
            | .error _ => l.getD j dflt) := by
  intro l
  induction l with
  | nil =>
    intro j dflt hj
    simp at hj
  | cons e rest ih =>
    intro j dflt hj
    by_cases he : e.embedding ≠ []
    · have hgo : backfillGo embed false (e :: rest) = e :: backfillGo embed false rest := by
        simp only [backfillGo, if_pos he]
      match j with
      | 0 =>
        rw [hgo]
        simp only [List.getD_cons_zero]
        refine ⟨fun _ => by trivial, fun habs _ => absurd habs he, fun habs _ => absurd habs he⟩
      | m + 1 =>
        rw [hgo]
        simp only [List.getD_cons_succ]
        have hm : m < rest.length := by simpa using hj
        obtain ⟨ihP2, ihP3, ihP4⟩ := ih m dflt hm
        refine ⟨ihP2, ?_, ?_⟩
        · intro hjemb hex
          apply ihP3 hjemb
          obtain ⟨i, hi, hie, hif⟩ := hex
          match i with
          | 0 =>
            rw [List.getD_cons_zero] at hie
            exact absurd hie he
          | i' + 1 =>
            rw [List.getD_cons_succ] at hie hif
            exact ⟨i', by omega, hie, hif⟩
        · intro hemb hall
          apply ihP4 hemb
          intro i hi hie
          have := hall (i + 1) (by omega)
          rw [List.getD_cons_succ] at this
          exact this hie
    · have he' : e.embedding = [] := not_not.mp he
      cases hemb : embed e.summary with
      | ok v =>
        have hgo : backfillGo embed false (e :: rest)
            = { e with embedding := v } :: backfillGo embed false rest := by
          simp only [backfillGo, if_neg he, if_neg (by simp : ¬ (false = true)), hemb]
        match j with
        | 0 =>
          rw [hgo]
          simp only [List.getD_cons_zero]
          refine ⟨fun habs => absurd he' habs, ?_, ?_⟩
          · intro _ hex
            obtain ⟨i, hi, _, _⟩ := hex
            omega
          · intro _ _
            rw [hemb]
        | m + 1 =>
          rw [hgo]
          simp only [List.getD_cons_succ]
          have hm : m < rest.length := by simpa using hj
          obtain ⟨ihP2, ihP3, ihP4⟩ := ih m dflt hm
          refine ⟨ihP2, ?_, ?_⟩
          · intro hjemb hex
            apply ihP3 hjemb
            obtain ⟨i, hi, hie, hif⟩ := hex
            match i with
            | 0 =>
              rw [List.getD_cons_zero] at hif
              rw [hemb] at hif
              cases hif
            | i' + 1 =>
              rw [List.getD_cons_succ] at hie hif
              exact ⟨i', by omega, hie, hif⟩
          · intro hjemb hall
            apply ihP4 hjemb
            intro i hi hie
            have := hall (i + 1) (by omega)
            rw [List.getD_cons_succ] at this
            exact this hie
      | error u =>
        have hgo : backfillGo embed false (e :: rest) = e :: rest := by
          simp only [backfillGo, if_neg he, if_neg (by simp : ¬ (false = true)), hemb]
          rw [backfillGo_stopped]
        match j with
        | 0 =>
          rw [hgo]
          simp only [List.getD_cons_zero]
          refine ⟨fun _ => by trivial, fun _ _ => by trivial, ?_⟩
          intro _ _
          rw [hemb]
        | m + 1 =>
          rw [hgo]
          simp only [List.getD_cons_succ]
          refine ⟨fun _ => by trivial, fun _ _ => by trivial, ?_⟩
          intro hjemb hall
          have h0 := hall 0 (by omega)
          rw [List.getD_cons_zero] at h0
          obtain ⟨v, hv⟩ := h0 he'
          rw [hemb] at hv
          cases hv

def c5Last : MemoryEntry := ⟨"mem_0".toList, "resumen previo".toList, [1], 0, 0⟩

def c5User : Str := "cuantas facturas emitimos este mes en total".toList

def c5Assistant : Str := "Se emitieron 42 facturas durante el mes".toList

def c5Summary : Str := "El usuario pregunta el total mensual de facturas".toList

/-- Counterexample for claim C5: the exchange qualifies (long enough,
non-trivial, valid summary) and the backend is down (`connected = false`),
but because an embeddings instance exists and the last stored entry has an
embedding, `addMemory` takes the duplicate-check path, the `embedQuery` call
throws, the surrounding `catch` swallows it — and no entry is stored at all,
instead of an entry with an empty embedding vector. -/
theorem memory_addMemory_backend_down_cx :
    c5User.length + c5Assistant.length ≥ 30 ∧
    isTrivialExchange c5User c5Assistant = false ∧
    generateSummaryModel c5User c5Assistant (.ok c5Summary) = some c5Summary ∧
    addMemory [c5Last] c5User c5Assistant (.ok c5Summary) (.error ()) true false 1000
      = [c5Last] := by
  refine ⟨by decide, by decide, by decide, ?_⟩
  rfl

/-- Claim C5 (amended): when the backend is down (`connected = false`) a
qualifying exchange is stored with an empty embedding vector only when the
duplicate-check path is not taken (no embeddings instance, or no previous
entry, or the last entry has no embedding); and the background backfill pass
keeps the store length, leaves embedded entries untouched, fills each
missing embedding in order, and stops at the first embedding failure,
leaving every later missing embedding alone rather than retrying. -/
theorem memory_addMemory_backend_down :
    (∀ (entries : List MemoryEntry) (userMsg assistantMsg : Str)
        (llm : Except Unit Str) (embedOutcome : Except Unit (List ℚ))
        (hasInstance : Bool) (now : ℤ) (summary : Str),
      ¬ (userMsg.length + assistantMsg.length < 30) →
      isTrivialExchange userMsg assistantMsg = false →
      generateSummaryModel userMsg assistantMsg llm = some summary →
      ¬ (summary.length < 10) →
      (hasInstance = false ∨
        (∀ last, entries.getLast? = some last → last.embedding = [])) →
      addMemory entries userMsg assistantMsg llm embedOutcome hasInstance false now
        = addEntry entries summary [] now) ∧
    (∀ (embed : Str → Except Unit (List ℚ)) (entries : List MemoryEntry),
      (backfillEmbeddings true true embed entries).length = entries.length) ∧
    (∀ (embed : Str → Except Unit (List ℚ)) (entries : List MemoryEntry)
        (j : ℕ) (dflt : MemoryEntry), j < entries.length →
      ((entries.getD j dflt).embedding ≠ [] →
        (backfillEmbeddings true true embed entries).getD j dflt
          = entries.getD j dflt) ∧
      ((entries.getD j dflt).embedding = [] →
        (∃ i, i < j ∧ (entries.getD i dflt).embedding = []
            ∧ embed ((entries.getD i dflt).summary) = .error ()) →
        (backfillEmbeddings true true embed entries).getD j dflt
          = entries.getD j dflt) ∧
      ((entries.getD j dflt).embedding = [] →
        (∀ i, i < j → (entries.getD i dflt).embedding = [] →
            ∃ v, embed ((entries.getD i dflt).summary) = .ok v) →
        (backfillEmbeddings true true embed entries).getD j dflt
          = match embed ((entries.getD j dflt).summary) with
            | .ok v => { entries.getD j dflt with embedding := v }
            | .error _ => entries.getD j dflt)) := by
  have hbe : ∀ (embed : Str → Except Unit (List ℚ)) (entries : List MemoryEntry),
      backfillEmbeddings true true embed entries = backfillGo embed false entries := by
    intro embed entries
    unfold backfillEmbeddings
    rw [if_neg (by simp)]
  refine ⟨?_, ?_, ?_⟩
  · intro entries userMsg assistantMsg llm embedOutcome hasInstance now summary
      hlen30 htriv hsum hlen10 hdup
    unfold addMemory
    rw [if_neg hlen30,
      if_neg (show ¬ (isTrivialExchange userMsg assistantMsg = true) by simp [htriv])]
    split
    · rename_i heq
      rw [hsum] at heq
      cases heq
    · rename_i s' heq
      rw [hsum] at heq
      injection heq with heq2
      subst heq2
      rw [if_neg hlen10]
      split
      · rename_i lastEntry heq2
        rcases hdup with hinst | hlastemp
        · rw [if_neg (by simp [hinst] :
              ¬ (lastEntry.embedding ≠ [] ∧ hasInstance = true))]
          rw [if_neg (by simp : ¬ (hasInstance = true ∧ false = true))]
        · have hle : lastEntry.embedding = [] := hlastemp lastEntry heq2
          rw [if_neg (by simp [hle] :
              ¬ (lastEntry.embedding ≠ [] ∧ hasInstance = true))]
          rw [if_neg (by simp : ¬ (hasInstance = true ∧ false = true))]
      · rename_i heq2
        rw [if_neg (by simp : ¬ (hasInstance = true ∧ false = true))]
  · intro embed entries
    rw [hbe, backfillGo_length]
  · intro embed entries j dflt hj
    rw [hbe]
    exact backfillGo_false_spec embed entries j dflt hj

theorem memory_addMemory_backend_down_witness :
    addMemory [] c5User c5Assistant (.ok c5Summary) (.ok [(1 : ℚ)]) false false 7
      = addEntry [] c5Summary [] 7 :=
  memory_addMemory_backend_down.1 [] c5User c5Assistant (.ok c5Summary)
    (.ok [(1 : ℚ)]) false 7 c5Summary (by decide) (by decide) (by decide)
    (by decide) (Or.inl rfl)
